import Mathlib

/-!
# Verification of the semantic job crawler's core subsystems

A shallow embedding, in Lean 4, of the deduplication engine, the crawl-job
step state machine, the crawl orchestrator and the URL-canonicalisation
utilities of the `sematic_job_crawler` backend (Python), together with
theorems settling the specification claims about them.

Conventions used throughout:
* Python strings are modelled as Lean `String` / `List Char`.
* Python `float` arithmetic is modelled over `ℚ` (the code only multiplies,
  adds and divides small counters and sequence-matcher ratios, where the
  interesting facts are exact).
* Database tables are modelled as in-memory lists of rows kept in query
  (insertion) order; SQLAlchemy `.first()` is `List.find?`, `.limit(n)` is
  `List.take n`.
* `datetime.utcnow()` timestamps are abstract `Nat` values supplied as
  parameters where the code reads a clock.
-/

namespace JobCrawler

/-! ## Crawl step state machine (`app/services/crawl_progress_service.py`)

`CrawlStepStatus` embeds the `str`-valued enum of `app/models/schemas.py`
(lines 206-211): `pending`, `running`, `completed`, `failed`, `skipped`. -/

inductive CrawlStepStatus where
  | pending
  | running
  | completed
  | failed
  | skipped
deriving DecidableEq, Repr

/-- Status of a step as recorded in a `CrawlJobProgress`; the state machine
claims only depend on each step's `status` field, so a job's step list is
modelled as its list of statuses. -/
abbrev StepList := List CrawlStepStatus

/-- Embedding of `CrawlProgressService._update_job_status`
(`crawl_progress_service.py` lines 247-266): the overall status derived from
the steps, given the job's current status `cur` (the Python method mutates
`job.status`; when no branch fires, `job.status` is left unchanged).
The three checks are evaluated in this priority order:
any `RUNNING` step, else any `FAILED` step, else all steps
`COMPLETED`/`SKIPPED`; otherwise the previous status is kept. -/
def updateJobStatus (steps : StepList) (cur : CrawlStepStatus) : CrawlStepStatus :=
  if steps.any (· = CrawlStepStatus.running) then CrawlStepStatus.running
  else if steps.any (· = CrawlStepStatus.failed) then CrawlStepStatus.failed
  else if steps.all (fun s => s = CrawlStepStatus.completed ∨ s = CrawlStepStatus.skipped)
    then CrawlStepStatus.completed
  else cur

/-! ## Bounded completed-jobs cache (`crawl_progress_service.py`)

Model of the `active_jobs`/`completed_jobs` dictionaries of
`CrawlProgressService` and of `_move_to_completed` (lines 268-317).
Python 3.7+ `dict`s preserve insertion order, so both maps are modelled as
association lists in insertion order; inserting an existing key updates the
entry in place, inserting a fresh key appends. -/

/-- The fields of `CrawlJobProgress` (`crawl_progress_service.py` lines
24-35) that the progress-cache logic reads.  `started_at` is an abstract
`Nat` timestamp; the step descriptions, config and datetimes not consulted
by `_move_to_completed` are kept as plain data. -/
structure CrawlJobProgress where
  job_id : String
  site_name : String
  status : CrawlStepStatus
  steps : StepList
  started_at : Nat
  total_jobs_found : Nat
  total_jobs_added : Nat
  total_duplicates : Nat
  errors : List String
  summary : Option String
deriving DecidableEq, Repr

/-- Insertion-ordered dictionary write: `d[k] = v`. -/
def dictInsert (m : List (String × CrawlJobProgress)) (k : String) (v : CrawlJobProgress) :
    List (String × CrawlJobProgress) :=
  if m.any (fun p => p.1 = k) then
    m.map (fun p => if p.1 = k then (k, v) else p)
  else m ++ [(k, v)]

/-- Dictionary read `d.get(k)`: first entry with the key. -/
def dictGet (m : List (String × CrawlJobProgress)) (k : String) : Option CrawlJobProgress :=
  (m.find? (fun p => p.1 = k)).map (fun p => p.2)

/-- `del d[k]`. -/
def dictErase (m : List (String × CrawlJobProgress)) (k : String) :
    List (String × CrawlJobProgress) :=
  m.filter (fun p => p.1 ≠ k)

/-- `self.max_completed_jobs = 50` (`crawl_progress_service.py` line 41). -/
def maxCompletedJobs : Nat := 50

/-- One comparison step of Python's `min(..., key=...)` scan: keep the
earlier entry unless the new one is strictly older. -/
def oldestStep (acc : Option (String × CrawlJobProgress)) (p : String × CrawlJobProgress) :
    Option (String × CrawlJobProgress) :=
  match acc with
  | none => some p
  | some q => if p.2.started_at < q.2.started_at then some p else some q

/-- The entry selected by
`min(self.completed_jobs.keys(), key=lambda k: self.completed_jobs[k].started_at)`
(lines 315-316): the first entry, in insertion order, whose job has the
strictly smallest `started_at` (Python's `min` keeps the earliest of ties). -/
def oldestEntry (m : List (String × CrawlJobProgress)) : Option (String × CrawlJobProgress) :=
  m.foldl oldestStep none

/-- The key of the evicted entry. -/
def oldestKey (m : List (String × CrawlJobProgress)) : Option String :=
  (oldestEntry m).map (fun p => p.1)

/-- The in-memory job-progress state of `CrawlProgressService`. -/
structure ProgressState where
  active : List (String × CrawlJobProgress)
  completed : List (String × CrawlJobProgress)
deriving DecidableEq, Repr

/-- Embedding of `CrawlProgressService._move_to_completed`
(`crawl_progress_service.py` lines 268-317): pop the job from
`active_jobs`, insert it into `completed_jobs`, and if the cache now holds
more than `max_completed_jobs` entries evict the completed job with the
smallest `started_at`.  The database status write (lines 274-311) touches
only the external history store and is outside this in-memory state. -/
def moveToCompleted (st : ProgressState) (jobId : String) : ProgressState :=
  match dictGet st.active jobId with
  | none => st
  | some job =>
      let active' := dictErase st.active jobId
      let completed' := dictInsert st.completed jobId job
      let completed'' :=
        if maxCompletedJobs < completed'.length then
          match oldestKey completed' with
          | some k => dictErase completed' k
          | none => completed'
        else completed'
      ⟨active', completed''⟩

/-! ### Lemmas about the completed-jobs cache -/

theorem dictInsert_length_le (m : List (String × CrawlJobProgress)) (k : String)
    (v : CrawlJobProgress) : (dictInsert m k v).length ≤ m.length + 1 := by
  unfold dictInsert
  by_cases h : m.any (fun p => p.1 = k)
  · simp [h]
  · simp [h]

/-! ## `difflib.SequenceMatcher` (CPython standard library)

`calculate_similarity` in `job_deduplication_service.py` (lines 91-97) and
`simple_duplicate_checker.py` (lines 105-111) calls
`SequenceMatcher(None, a, b).ratio()`.  The definitions below port
CPython's algorithm: the `b2j`/`j2len` dynamic program of
`find_longest_match`, the recursive block decomposition of
`get_matching_blocks`, and `ratio = 2*M / (len(a)+len(b))`.  Junk handling
is omitted: the services pass `isjunk=None`, and `autojunk` only affects
sequences of length ≥ 200 (the `b2j` popularity filter), so for the titles
and company names compared here the port is exact.  Scanning every index
`j` of `b` in ascending order and testing `b[j] == a[i]` visits exactly the
positions `b2j[a[i]]`, in the same order. -/

/-- A matching block `(besti, bestj, size)` as produced by
`find_longest_match`. -/
structure FlmBest where
  besti : Nat
  bestj : Nat
  size : Nat
deriving DecidableEq, Repr

/-- Row update of the `j2len` dictionary:
`newj2len[j] = j2len.get(j-1, 0) + 1` at positions of `a[i]` in `b`,
`0` elsewhere (a missing dictionary key reads as `0`). -/
def flmNewRow (b : List Char) (ai : Char) (old : Nat → Nat) : Nat → Nat :=
  fun j => if b.get? j = some ai then (if j = 0 then 0 else old (j - 1)) + 1 else 0

/-- Inner loop of `find_longest_match` over `j` for row `i`:
`k = j2len.get(j-1, 0) + 1; if k > bestsize: besti, bestj, bestsize = i-k+1, j-k+1, k`.
The strict `>` means the first maximal block in scan order is kept, i.e. the
maximal block ending (equivalently starting) earliest in `a`, then earliest
in `b`. -/
def flmRowGo (ai : Char) (i : Nat) (old : Nat → Nat) :
    List Char → Nat → FlmBest → FlmBest
  | [], _, best => best
  | c :: rest, j, best =>
      let best' :=
        if c = ai then
          let k := (if j = 0 then 0 else old (j - 1)) + 1
          if best.size < k then ⟨i + 1 - k, j + 1 - k, k⟩ else best
        else best
      flmRowGo ai i old rest (j + 1) best'

/-- Outer loop of `find_longest_match` over the rows `i` of `a`. -/
def flmGo (b : List Char) : List Char → Nat → (Nat → Nat) → FlmBest → FlmBest
  | [], _, _, best => best
  | c :: rest, i, old, best =>
      flmGo b rest (i + 1) (flmNewRow b c old) (flmRowGo c i old b 0 best)

/-- `SequenceMatcher.find_longest_match` over the whole of `a` and `b`
(initial `besti, bestj, bestsize = alo, blo, 0 = 0, 0, 0`).  The post-loop
junk-extension `while` loops are identities here: with no junk set, a block
extendable by an equal neighbouring pair would already have been counted by
the `j2len` diagonal run, contradicting maximality. -/
def findLongestMatch (a b : List Char) : FlmBest :=
  flmGo b a 0 (fun _ => 0) ⟨0, 0, 0⟩

/-- Total number of matched elements, i.e. the sum of the block sizes of
`get_matching_blocks`: recursively take the longest match and recurse on
the parts before and on the parts after it.  The recursion consumes `a`
strictly (each chosen block is nonempty and within bounds), so `a.length`
is an exact fuel bound; the `fuel` argument only makes the recursion
structural. -/
def matchesTotalGo (b : List Char) : Nat → List Char → List Char → Nat
  | 0, _, _ => 0
  | fuel + 1, a, bb =>
      let m := findLongestMatch a bb
      if m.size = 0 then 0
      else
        m.size + matchesTotalGo b fuel (a.take m.besti) (bb.take m.bestj) +
          matchesTotalGo b fuel (a.drop (m.besti + m.size)) (bb.drop (m.bestj + m.size))

/-- Sum of all matching-block sizes for `SequenceMatcher(None, a, b)`. -/
def matchesTotal (a b : List Char) : Nat :=
  matchesTotalGo b a.length a b

/-- `SequenceMatcher.ratio()`: `2.0 * matches / length` where `length` is
the total length of both sequences, and `1.0` when both are empty
(`difflib._calculate_ratio`). -/
def pyRatio (a b : List Char) : ℚ :=
  if a.length + b.length = 0 then 1
  else 2 * (matchesTotal a b : ℚ) / ((a.length + b.length : Nat) : ℚ)

/-! ## Shared string helpers for the deduplication services -/

/-- Python string truthiness of an `Optional[str]`: `None` and `''` are
falsy. -/
def truthyOpt (o : Option String) : Bool :=
  match o with
  | none => false
  | some s => !s.isEmpty

/-- Substring containment, the semantics of Python's `in` for strings and
of a SQL `ILIKE '%pat%'` pattern whose body has no wildcard characters
(none of the compared job fields are wildcard patterns). -/
def containsSub (hay needle : List Char) : Bool :=
  match hay with
  | [] => needle.isEmpty
  | _ :: t => needle.isPrefixOf hay || containsSub t needle

/-- ASCII lowercase of a string (`Char.toLower` lowers exactly `A`-`Z`;
the job-field claims are about ASCII data). -/
def lowerStr (s : String) : List Char :=
  s.data.map Char.toLower

/-- SQL `col ILIKE '%pat%'` on a nullable column: `NULL` never matches;
otherwise case-insensitive substring containment. -/
def ilikeContains (col : Option String) (pat : String) : Bool :=
  match col with
  | none => false
  | some s => containsSub (lowerStr s) (pat.data.map Char.toLower)

/-- Whitespace for Python's no-argument `str.split()` (ASCII). -/
def isPyWs (c : Char) : Bool :=
  c = ' ' || c = '\t' || c = '\n' || c = '\x0d' || c = '\x0b' || c = '\x0c'

/-- Accumulator pass of `str.split()`: split on runs of whitespace,
discarding empty fields. -/
def pyWordsGo : List Char → List Char → List (List Char)
  | [], cur => if cur.isEmpty then [] else [cur.reverse]
  | c :: rest, cur =>
      if isPyWs c then
        if cur.isEmpty then pyWordsGo rest [] else cur.reverse :: pyWordsGo rest []
      else pyWordsGo rest (c :: cur)

/-- Python `s.split()`. -/
def pyWords (l : List Char) : List (List Char) :=
  pyWordsGo l []

/-- `' '.join(ws)`. -/
def joinSpace : List (List Char) → List Char
  | [] => []
  | [w] => w
  | w :: ws => w ++ ' ' :: joinSpace ws

/-- `' '.join(job_data.title.split()[:3])`: the first three words of the
title, used to build the fuzzy-match `ILIKE` pattern
(`job_deduplication_service.py` lines 78-79). -/
def firstThreeWords (title : String) : String :=
  ⟨joinSpace ((pyWords title.data).take 3)⟩

/-! ## Deduplication data model

`app/models/schemas.py` lines 31-42 (`JobCreate`) and the
`JobMetadataDB` / `JobDuplicateDB` SQLAlchemy rows.  The two table classes
are imported from `app.models.database` by the services but their class
definitions are absent from the source tree; their columns are
reconstructed exactly from every read/write the services perform
(they realise the spec's Fingerprint/DuplicateRecord entities). -/

/-- `JobSource` enum values are only ever compared as their `.value`
strings, so a source is its string value here. -/
abbrev JobSource := String

/-- `JobCreate` (`schemas.py` lines 31-42); `posted_date` is an abstract
timestamp. -/
structure JobCreate where
  title : String
  description : String
  company_name : String
  posted_date : Nat
  source : JobSource
  original_url : String
  location : Option String
  salary : Option String
  job_type : Option String
  experience_level : Option String
  source_id : Option String
deriving DecidableEq, Repr

/-- A `job_metadata` row as read and written by the deduplication
services: primary key `id`, plus the columns referenced in
`job_deduplication_service.py` / `simple_duplicate_checker.py`
(`job_id`, `source`, `original_url`, `source_job_id`, `content_hash`,
`title`, `company_name`, `description`, `marqo_id`) and the cleaned `url`
column used by `job_metadata_service.py`. -/
structure JobMetadataRow where
  id : String
  job_id : String
  source : String
  original_url : Option String
  source_job_id : Option String
  content_hash : String
  title : Option String
  company_name : Option String
  description : Option String
  marqo_id : Option String
  url : Option String
deriving DecidableEq, Repr

/-- A `job_duplicates` row as written by
`JobDeduplicationService.log_duplicate` (lines 99-120); the JSON
`duplicate_fields` dict `{title, company_name, source}` is inlined. -/
structure JobDuplicateRow where
  original_job_id : String
  duplicate_source : String
  duplicate_source_id : String
  duplicate_url : String
  similarity_score : Option ℚ
  fields_title : String
  fields_company_name : String
  fields_source : String
  detection_method : String
deriving DecidableEq, Repr

/-- The two tables the deduplication engine touches, in insertion order. -/
structure DedupDb where
  metadata : List JobMetadataRow
  duplicates : List JobDuplicateRow
deriving DecidableEq, Repr

/-! ## `JobDeduplicationService` (`app/services/job_deduplication_service.py`) -/

namespace JobDeduplicationService

/-- `check_by_source_id` (lines 53-62). -/
def check_by_source_id (db : DedupDb) (j : JobCreate) : Option JobMetadataRow :=
  if truthyOpt j.source_id then
    db.metadata.find? (fun r => decide (r.source = j.source ∧ r.source_job_id = j.source_id))
  else none

/-- `generate_content_hash` (lines 70-73): SHA-256 of
`f"{title}|{company_name}|{description}"`.  The hash is modelled as the
identity fingerprint on the hashed content (an injective abstraction of
SHA-256: equal contents collide, distinct contents do not). -/
def generate_content_hash (j : JobCreate) : String :=
  j.title ++ "|" ++ j.company_name ++ "|" ++ j.description

/-- `check_by_content_hash` (lines 64-68). -/
def check_by_content_hash (db : DedupDb) (h : String) : Option JobMetadataRow :=
  db.metadata.find? (fun r => decide (r.content_hash = h))

/-- `calculate_similarity` (lines 91-97):
`0.6 * ratio(existing.title or '', new.title) + 0.4 * ratio(existing.company_name or '', new.company_name)`. -/
def calculate_similarity (existing : JobMetadataRow) (new : JobCreate) : ℚ :=
  let title_sim := pyRatio (existing.title.getD "").data new.title.data
  let company_sim := pyRatio (existing.company_name.getD "").data new.company_name.data
  title_sim * (0.6 : ℚ) + company_sim * (0.4 : ℚ)

/-- `check_by_fuzzy_match` (lines 75-89): candidates are the first five
rows whose title contains the new title's first three words and whose
company contains the new company (both `ILIKE`), and the result is the
first candidate with similarity strictly above `0.85`. -/
def check_by_fuzzy_match (db : DedupDb) (j : JobCreate) : Option JobMetadataRow :=
  ((db.metadata.filter (fun r =>
      ilikeContains r.title (firstThreeWords j.title) &&
      ilikeContains r.company_name j.company_name)).take
    5).find? (fun r => decide ((0.85 : ℚ) < calculate_similarity r j))

/-- `log_duplicate` (lines 99-120): append a `JobDuplicateDB` row. -/
def log_duplicate (db : DedupDb) (original_job_id : String) (dup : JobCreate)
    (detection_method : String) (similarity_score : Option ℚ) : DedupDb :=
  { db with
    duplicates := db.duplicates ++
      [{ original_job_id := original_job_id
         duplicate_source := dup.source
         duplicate_source_id := if truthyOpt dup.source_id then dup.source_id.getD "" else ""
         duplicate_url := dup.original_url
         similarity_score := similarity_score
         fields_title := dup.title
         fields_company_name := dup.company_name
         fields_source := dup.source
         detection_method := detection_method }] }

/-- `store_new_job` (lines 122-142): append the metadata row with its
fingerprints; `newId` stands for the database-generated primary key and
`now` for `str(datetime.now().timestamp())`. -/
def store_new_job (db : DedupDb) (j : JobCreate) (content_hash : String)
    (marqo_id : Option String) (newId now : String) : DedupDb × JobMetadataRow :=
  let row : JobMetadataRow :=
    { id := newId
      job_id := if truthyOpt marqo_id then marqo_id.getD "" else now
      source := j.source
      original_url := some j.original_url
      source_job_id := j.source_id
      content_hash := content_hash
      title := some j.title
      company_name := some j.company_name
      description := some j.description
      marqo_id := marqo_id
      url := none }
  ({ db with metadata := db.metadata ++ [row] }, row)

/-- The result of `check_and_store_job`: the `(is_new, info)` pair plus the
database state after the call. -/
structure CheckResult where
  is_new : Bool
  info : String
  db : DedupDb
deriving DecidableEq, Repr

/-- `check_and_store_job` (lines 17-51).  Tiers in order: source-id match,
content-hash match, fuzzy match; a unique job is stored.  There is no
URL-based tier in this service. -/
def check_and_store_job (db : DedupDb) (j : JobCreate) (marqo_id : Option String)
    (newId now : String) : CheckResult :=
  -- 1. check by source and source_id (exact match)
  match (if truthyOpt j.source_id then check_by_source_id db j else none) with
  | some existing =>
      ⟨false, "Duplicate found by source ID: " ++ existing.id,
        log_duplicate db existing.id j "source_id_match" none⟩
  | none =>
    -- 2. check by content hash (exact content match)
    match check_by_content_hash db (generate_content_hash j) with
    | some existing =>
        ⟨false, "Duplicate found by content hash: " ++ existing.id,
          log_duplicate db existing.id j "content_hash_match" none⟩
    | none =>
      -- 3. check by fuzzy matching (title + company similarity)
      match check_by_fuzzy_match db j with
      | some similar =>
          if (0.85 : ℚ) < calculate_similarity similar j then
            ⟨false, "Similar job found: " ++ similar.id,
              log_duplicate db similar.id j "fuzzy_match"
                (some (calculate_similarity similar j))⟩
          else
            ⟨true, (store_new_job db j (generate_content_hash j) marqo_id newId now).2.id,
              (store_new_job db j (generate_content_hash j) marqo_id newId now).1⟩
      | none =>
          -- 4. job is unique, store it
          ⟨true, (store_new_job db j (generate_content_hash j) marqo_id newId now).2.id,
            (store_new_job db j (generate_content_hash j) marqo_id newId now).1⟩

end JobDeduplicationService

/-! ### Concrete stores and postings used to instantiate the
deduplication claims -/

/-- A stored row whose title/company cross those of `simJobB`. -/
def simRowA : JobMetadataRow :=
  ⟨"idA", "jA", "topcv", none, none, "hashA", some "ab!cd?ef", some "co", none, none, none⟩

/-- A candidate posting with title `"ef.ab,cd"`. -/
def simJobB : JobCreate :=
  ⟨"ef.ab,cd", "descB", "co", 0, "topcv", "urlB", none, none, none, none, none⟩

/-- The mirror row of `simJobB`. -/
def simRowB : JobMetadataRow :=
  ⟨"idB", "jB", "topcv", none, none, "hashB", some "ef.ab,cd", some "co", none, none, none⟩

/-- The mirror posting of `simRowA`. -/
def simJobA : JobCreate :=
  ⟨"ab!cd?ef", "descA", "co", 0, "topcv", "urlA", none, none, none, none, none⟩

/-- A stored row with the same title/company as `simJobRefl`. -/
def simRowRefl : JobMetadataRow :=
  ⟨"id0", "j0", "topcv", none, none, "h0", some "python developer", some "acme",
    none, none, none⟩

/-- A posting identical in title/company to `simRowRefl`. -/
def simJobRefl : JobCreate :=
  ⟨"python developer", "d", "acme", 0, "topcv", "u", none, none, none, none, none⟩

/-- Stored row scoring similarity `0.86` against `job86`
(`title` ratio `9/10`, `company` ratio `4/5`). -/
def row86 : JobMetadataRow :=
  ⟨"id86", "j86", "topcv", none, none, "HASH-EXISTING", some "aaaaaaaaaxy", some "aaaaxx",
    none, none, none⟩

/-- Candidate posting scoring `0.86` against `row86`. -/
def job86 : JobCreate :=
  ⟨"aaaaaaaaa", "desc-new", "aaaa", 0, "topcv", "u86", none, none, none, none, none⟩

/-- A store holding only `row86`. -/
def db86 : DedupDb := ⟨[row86], []⟩

/-- Stored row scoring similarity `0.84` against `job84`
(`title` ratio `9/10`, `company` ratio `3/4`). -/
def row84 : JobMetadataRow :=
  ⟨"id84", "j84", "topcv", none, none, "HASH-EXISTING", some "aaaaaaaaaxy", some "aaaxy",
    none, none, none⟩

/-- Candidate posting scoring `0.84` against `row84`. -/
def job84 : JobCreate :=
  ⟨"aaaaaaaaa", "desc-new", "aaa", 0, "topcv", "u84", none, none, none, none, none⟩

/-- A store holding only `row84`. -/
def db84 : DedupDb := ⟨[row84], []⟩

/-- A fresh posting: ingested twice for the idempotent-ingestion claim. -/
def jobC4 : JobCreate :=
  ⟨"backend engineer", "great role", "acme", 0, "topcv", "https://x.example/1",
    none, none, none, none, some "n-1"⟩

/-! ## `SimpleDuplicateChecker` (`app/services/simple_duplicate_checker.py`)

The second, read-only deduplication pipeline.  Unlike
`JobDeduplicationService` it has a URL tier (raw equality on
`original_url`, tier 2) and a richer content hash. -/

namespace SimpleDuplicateChecker

/-- `check_by_source_id` (lines 52-61), identical to the other service's. -/
def check_by_source_id (db : DedupDb) (j : JobCreate) : Option JobMetadataRow :=
  if truthyOpt j.source_id then
    db.metadata.find? (fun r => decide (r.source = j.source ∧ r.source_job_id = j.source_id))
  else none

/-- `check_by_url` (lines 63-67): raw equality on the stored
`original_url` column — the URL is not canonicalised here. -/
def check_by_url (db : DedupDb) (j : JobCreate) : Option JobMetadataRow :=
  db.metadata.find? (fun r => decide (r.original_url = some j.original_url))

/-- `generate_content_hash` (lines 75-87): SHA-256 of
`'|'.join([title, company_name, description or '', requirements or '',
location or '', salary or ''])`; `JobCreate` has no `requirements`
attribute, so `getattr(..., 'requirements', '')` is always `''`.  As in the
other service, the hash is modelled as the identity fingerprint on the
hashed content. -/
def generate_content_hash (j : JobCreate) : String :=
  j.title ++ "|" ++ j.company_name ++ "|" ++ j.description ++ "|" ++ "" ++ "|" ++
    j.location.getD "" ++ "|" ++ j.salary.getD ""

/-- `check_by_content_hash` (lines 69-73). -/
def check_by_content_hash (db : DedupDb) (h : String) : Option JobMetadataRow :=
  db.metadata.find? (fun r => decide (r.content_hash = h))

/-- `calculate_similarity` (lines 105-111), identical to the other
service's. -/
def calculate_similarity (existing : JobMetadataRow) (new : JobCreate) : ℚ :=
  pyRatio (existing.title.getD "").data new.title.data * (0.6 : ℚ) +
    pyRatio (existing.company_name.getD "").data new.company_name.data * (0.4 : ℚ)

/-- `check_by_fuzzy_match` (lines 89-103), identical to the other
service's. -/
def check_by_fuzzy_match (db : DedupDb) (j : JobCreate) : Option JobMetadataRow :=
  ((db.metadata.filter (fun r =>
      ilikeContains r.title (firstThreeWords j.title) &&
      ilikeContains r.company_name j.company_name)).take
    5).find? (fun r => decide ((0.85 : ℚ) < calculate_similarity r j))

/-- `is_duplicate` (lines 20-50): `(is_duplicate, reason)` with the four
tiers in order — source-id, raw URL, content hash, fuzzy — stopping at the
first match.  The fuzzy reason's formatted `_{score:.2f}` suffix is
abstracted away (no claim consults it). -/
def is_duplicate (db : DedupDb) (j : JobCreate) : Bool × String :=
  -- 1. check by source and source_id (exact match)
  match (if truthyOpt j.source_id then check_by_source_id db j else none) with
  | some _ => (true, "source_id_match")
  | none =>
    -- 2. check by URL (common duplicate case)
    match (if !j.original_url.isEmpty then check_by_url db j else none) with
    | some _ => (true, "url_match")
    | none =>
      -- 3. check by content hash (exact content match)
      match check_by_content_hash db (generate_content_hash j) with
      | some _ => (true, "content_hash_match")
      | none =>
        -- 4. check by fuzzy matching (title + company similarity)
        match check_by_fuzzy_match db j with
        | some similar =>
            if (0.85 : ℚ) < calculate_similarity similar j then
              (true, "fuzzy_match_score")
            else (false, "unique")
        | none => (false, "unique")

end SimpleDuplicateChecker

/-- A stored row for the C1 counterexample: its `original_url` equals
`jobC1.original_url` but no other tier matches. -/
def rowC1 : JobMetadataRow :=
  ⟨"idC1", "jC1", "itviec", none, some "other-9", "HASH-OTHER", some "alpha", some "zcorp",
    some "old description", none, none⟩

/-- A posting whose URL matches `rowC1` while source-id, content hash and
fuzzy candidates all miss. -/
def jobC1 : JobCreate :=
  ⟨"beta", "new description", "acme", 0, "topcv", "https://x.example/job/1",
    none, none, none, none, none⟩

/-- The C1 store: just `rowC1`, with the matching URL. -/
def dbC1 : DedupDb :=
  ⟨[{ rowC1 with original_url := some "https://x.example/job/1" }], []⟩

/-! ## Crawl orchestrator (`app/crawlers/crawler_manager.py`)

`CrawlerManager.crawl_all_sources` (lines 26-221) iterates over the
registered crawlers; for each source its availability check, crawl and
per-job duplicate-check/store interactions are external I/O, so a source's
behaviour in one run is an input (`SourceRun`): the availability check may
raise or report unavailable, `crawl_jobs` may raise, or it returns a job
list in which each job's processing outcome is recorded.  The model follows
the logging-service branch (lines 45-139); the no-logging fallback
(lines 141-176) differs only in not writing a `source_results` entry for an
unavailable source, which leaves every claim below intact because such an
entry carries only zero counts.  Exceptions after `crawl_jobs` returns
(e.g. in `logger.complete`) are not modelled.  Wall-clock durations and
timestamps are abstracted to `0`. -/

/-- `CrawlSourceResult` (`schemas.py` lines 171-179). -/
structure CrawlSourceResult where
  source : String
  total_crawled : Nat
  jobs_added : Nat
  jobs_already_exist : Nat
  errors : List String
  success_rate : ℚ
  duration_seconds : ℚ
deriving DecidableEq, Repr

/-- Outcome of processing one crawled job (lines 93-110): the Marqo
duplicate check says duplicate, the add succeeds, or an exception is
caught and recorded. -/
inductive JobOutcome where
  | added
  | duplicate
  | procError (msg : String)
deriving DecidableEq, Repr

/-- One source's externally determined behaviour during a run. -/
inductive SourceRun where
  | availRaises (msg : String)
  | unavailable
  | crawlRaises (msg : String)
  | ok (jobs : List JobOutcome)
deriving DecidableEq, Repr

/-- `added_count` after the per-job loop. -/
def countAdded (jobs : List JobOutcome) : Nat :=
  (jobs.filter (fun o => o = JobOutcome.added)).length

/-- `duplicates_count` after the per-job loop. -/
def countDup (jobs : List JobOutcome) : Nat :=
  (jobs.filter (fun o => o = JobOutcome.duplicate)).length

/-- The `source_errors` recorded by the per-job loop, in job order
(line 107: `f"Error processing job from {source_name}: {e}"`). -/
def jobErrors (src : String) (jobs : List JobOutcome) : List String :=
  jobs.filterMap (fun o =>
    match o with
    | JobOutcome.procError m => some ("Error processing job from " ++ src ++ ": " ++ m)
    | _ => none)

/-- The per-source `CrawlSourceResult` produced by one iteration of the
source loop: unavailable sources short-circuit with zeros (lines 57-84); an
exception in the availability check or in `crawl_jobs` is caught by the
outer handler, which records `f"Error crawling {name}: {e}"` with the zero
counts reached so far (lines 183-198); a completed crawl records its
counts and `success_rate = added / crawled * 100` for `crawled > 0`, else
`0` (lines 112-137). -/
def processSource (name : String) (run : SourceRun) : CrawlSourceResult :=
  match run with
  | SourceRun.availRaises m =>
      ⟨name, 0, 0, 0, ["Error crawling " ++ name ++ ": " ++ m], 0, 0⟩
  | SourceRun.unavailable =>
      ⟨name, 0, 0, 0, [name ++ " is not available"], 0, 0⟩
  | SourceRun.crawlRaises m =>
      ⟨name, 0, 0, 0, ["Error crawling " ++ name ++ ": " ++ m], 0, 0⟩
  | SourceRun.ok jobs =>
      ⟨name, jobs.length, countAdded jobs, countDup jobs, jobErrors name jobs,
        if 0 < jobs.length then (countAdded jobs : ℚ) / (jobs.length : ℚ) * 100 else 0, 0⟩

/-- `CrawlResult` (`schemas.py` lines 181-192); `source_results` is the
`Dict[str, CrawlSourceResult]`, as an insertion-ordered association
list. -/
structure CrawlResult where
  total_crawled : Nat
  total_added : Nat
  total_already_exist : Nat
  sources_processed : Nat
  errors : List String
  source_results : List (String × CrawlSourceResult)
  duration_seconds : ℚ
  success_rate : ℚ
deriving DecidableEq, Repr

/-- `source_results[name] = result` with Python-dict semantics. -/
def resultInsert (m : List (String × CrawlSourceResult)) (k : String)
    (v : CrawlSourceResult) : List (String × CrawlSourceResult) :=
  if m.any (fun p => p.1 = k) then
    m.map (fun p => if p.1 = k then (k, v) else p)
  else m ++ [(k, v)]

/-- The source loop of `crawl_all_sources`: accumulate
`(total_crawled, total_added, total_already_exist)`, `all_errors` and
`source_results` over the registered sources in order. -/
def crawlAllFold : List (String × SourceRun) → (Nat × Nat × Nat) → List String →
    List (String × CrawlSourceResult) →
    (Nat × Nat × Nat) × List String × List (String × CrawlSourceResult)
  | [], totals, errs, results => (totals, errs, results)
  | p :: rest, totals, errs, results =>
      crawlAllFold rest
        (totals.1 + (processSource p.1 p.2).total_crawled,
          totals.2.1 + (processSource p.1 p.2).jobs_added,
          totals.2.2 + (processSource p.1 p.2).jobs_already_exist)
        (errs ++ (processSource p.1 p.2).errors)
        (resultInsert results p.1 (processSource p.1 p.2))

/-- `CrawlerManager.crawl_all_sources` (lines 26-221) as a function of the
registered sources' behaviours. -/
def crawl_all_sources (runs : List (String × SourceRun)) : CrawlResult :=
  { total_crawled := (crawlAllFold runs (0, 0, 0) [] []).1.1
    total_added := (crawlAllFold runs (0, 0, 0) [] []).1.2.1
    total_already_exist := (crawlAllFold runs (0, 0, 0) [] []).1.2.2
    sources_processed := runs.length
    errors := (crawlAllFold runs (0, 0, 0) [] []).2.1
    source_results := (crawlAllFold runs (0, 0, 0) [] []).2.2
    duration_seconds := 0
    success_rate :=
      if 0 < (crawlAllFold runs (0, 0, 0) [] []).1.1 then
        ((crawlAllFold runs (0, 0, 0) [] []).1.2.1 : ℚ) /
          ((crawlAllFold runs (0, 0, 0) [] []).1.1 : ℚ) * 100
      else 0 }

/-- The spec's scenario: four registered sources, one unavailable. -/
def runs4 : List (String × SourceRun) :=
  [("TopCV", SourceRun.ok [JobOutcome.added, JobOutcome.added, JobOutcome.duplicate]),
   ("ITViec", SourceRun.unavailable),
   ("VietnamWorks", SourceRun.ok [JobOutcome.added]),
   ("LinkedIn", SourceRun.ok [JobOutcome.duplicate, JobOutcome.added])]

/-! ## Fetch strategy chain (`app/crawlers/topcv_playwright_crawler.py`)

`TopCVPlaywrightCrawler._crawl_page` (lines 397-597) is the per-URL fetch:
navigate, and on a 403 challenge page try FlareSolverr, then the
cloudscraper-style bypass, then the human-in-the-loop challenge wait,
before falling through to the normal selector-based extraction.  Each
external interaction's outcome is a field of `CrawlPageEnv`; the function
below reproduces the branch structure on those outcomes.  Waits, logging,
mouse movement and the page lifecycle are I/O without influence on the
returned value; the final `except Exception` handler (lines 586-595)
swallows any error and still returns the accumulated `jobs`, so the
function never raises. -/

/-- Python `str.strip()` over the ASCII whitespace set. -/
def pyStrip (l : List Char) : List Char :=
  ((l.dropWhile isPyWs).reverse.dropWhile isPyWs).reverse

/-- The challenge indicators of lines 434-442. -/
def challengeIndicators : List String :=
  ["just a moment", "checking your browser", "verify you are human", "cloudflare",
    "challenge", "security check", "please wait"]

/-- Lines 444-447: a potential Cloudflare challenge is detected when an
indicator occurs in the lowered title or content, or the stripped title is
shorter than 5 characters. -/
def isChallengeDetected (title content : String) : Bool :=
  challengeIndicators.any (fun s => containsSub (lowerStr title) s.data) ||
  challengeIndicators.any (fun s => containsSub (lowerStr content) s.data) ||
  decide ((pyStrip title.data).length < 5)

/-- Externally determined outcomes of one `_crawl_page` call.
`challengeSolved` is the result of `_solve_cloudflare_challenge`; in the
code it only selects a log message (the `else` of line 483 belongs to
`if not bypass_successful`, line 476, not to `if challenge_solved`), so it
does not influence the returned value.  `blockedContent` is the
`"captcha"/"blocked"` early return of lines 524-528; `normalJobs` are the
postings the selector-based extraction loop (lines 534-580) yields. -/
structure CrawlPageEnv where
  responseStatus : Option Nat
  pageTitle : String
  pageContent : String
  flareContent : Option String
  flareJobs : List JobCreate
  scraperContent : Option String
  scraperJobs : List JobCreate
  challengeSolved : Bool
  blockedContent : Bool
  normalJobs : List JobCreate
deriving DecidableEq, Repr

/-- Modelled from the spec: the structured `FetchError` of §4.1/§7, which
carries the attempted strategies and their failure reasons.  No such type
(nor any raised fetch error) exists anywhere in the crawler code; the type
exists here only so the claim can be stated. -/
structure FetchErrorSpec where
  attempted_strategies : List String
  failure_reasons : List String
deriving DecidableEq, Repr

/-- Method 2 (lines 464-473): cloudscraper-style bypass; jobs are kept only
when content came back and extraction found postings. -/
def scraperStage (env : CrawlPageEnv) : Option (List JobCreate) :=
  match env.scraperContent with
  | some _ => if !env.scraperJobs.isEmpty then some env.scraperJobs else none
  | none => none

/-- Methods 1-2 (lines 450-473): `bypass_successful` with the extracted
jobs, `none` when both bypasses failed. -/
def bypassOutcome (env : CrawlPageEnv) : Option (List JobCreate) :=
  match env.flareContent with
  | some _ => if !env.flareJobs.isEmpty then some env.flareJobs else scraperStage env
  | none => scraperStage env

/-- The normal selector flow (lines 498-597) starting from the jobs
collected so far. -/
def normalFlow (env : CrawlPageEnv) (jobsSoFar : List JobCreate) : List JobCreate :=
  if env.blockedContent then jobsSoFar else jobsSoFar ++ env.normalJobs

/-- `_crawl_page` (lines 397-597).  The result type is `Except` so that
"raises a fetch error" is expressible; the code constructs no error on any
path. -/
def crawlSinglePage (env : CrawlPageEnv) : Except FetchErrorSpec (List JobCreate) :=
  match env.responseStatus with
  | some status =>
      if status = 403 then
        if isChallengeDetected env.pageTitle env.pageContent then
          match bypassOutcome env with
          | some jobs => Except.ok jobs
          | none =>
              -- both bypasses failed: `_solve_cloudflare_challenge` runs,
              -- and control continues into the normal flow whether or not
              -- it succeeded (lines 476-482)
              Except.ok (normalFlow env [])
        else
          -- 403 without challenge markers: inspection pause, then
          -- `return jobs` (lines 486-492)
          Except.ok []
      else if status ≠ 200 then
        -- `elif response and response.status != 200: return jobs`
        Except.ok []
      else Except.ok (normalFlow env [])
  | none => Except.ok (normalFlow env [])

/-- The all-strategies-fail environment: a 403 challenge page, both
bypasses empty-handed, the human challenge unsolved, nothing extractable. -/
def envAllFail : CrawlPageEnv :=
  { responseStatus := some 403
    pageTitle := "Just a moment..."
    pageContent := ""
    flareContent := none
    flareJobs := []
    scraperContent := none
    scraperJobs := []
    challengeSolved := false
    blockedContent := false
    normalJobs := [] }

/-! ## URL canonicalisation (`app/utils/url_utils.py` and CPython 3.11 `urllib.parse`)

`clean_job_url` delegates to `urlparse`/`urlunparse`; those are embedded
here following the CPython 3.11.6 sources of `urlsplit`, `_splitnetloc`,
`_splitparams`, `urlunsplit` and `urlunparse` (strings as `List Char`). -/

/-- The whitespace set of Python's `str.strip()` (the characters with
`str.isspace() == True`). -/
def isPyStripWs (c : Char) : Bool :=
  decide (c ∈ ['\t', '\n', '\x0b', '\x0c', '\x0d', '\x1c', '\x1d', '\x1e', '\x1f',
    ' ', '\x85', '\xa0', '\u1680', '\u2000', '\u2001', '\u2002', '\u2003',
    '\u2004', '\u2005', '\u2006', '\u2007', '\u2008', '\u2009', '\u200a',
    '\u2028', '\u2029', '\u202f', '\u205f', '\u3000'])

/-- Python `str.strip()` (no argument): remove leading and trailing
whitespace. -/
def pyStripFull (l : List Char) : List Char :=
  ((l.dropWhile isPyStripWs).reverse.dropWhile isPyStripWs).reverse

/-- `_WHATWG_C0_CONTROL_OR_SPACE`: the characters U+0000 through U+0020. -/
def isC0OrSpace (c : Char) : Bool :=
  c.toNat ≤ 32

/-- `url.lstrip(_WHATWG_C0_CONTROL_OR_SPACE)` at the top of `urlsplit`. -/
def lstripC0 (l : List Char) : List Char :=
  l.dropWhile isC0OrSpace

/-- `_UNSAFE_URL_BYTES_TO_REMOVE = ["\t", "\r", "\n"]`. -/
def isUnsafeUrlByte (c : Char) : Bool :=
  c = '\t' || c = '\r' || c = '\n'

/-- The `url.replace(b, "")` loop of `urlsplit` removing every unsafe
byte. -/
def dropUnsafeBytes (l : List Char) : List Char :=
  l.filter (fun c => !isUnsafeUrlByte c)

/-- The preprocessing `urlsplit` applies to its argument before parsing. -/
def urlPre (l : List Char) : List Char :=
  dropUnsafeBytes (lstripC0 l)

/-- `scheme_chars` of `urllib.parse`. -/
def scheme_chars : List Char :=
  "abcdefghijklmnopqrstuvwxyzABCDEFGHIJKLMNOPQRSTUVWXYZ0123456789+-.".data

def isSchemeChar (c : Char) : Bool :=
  scheme_chars.contains c

/-- `uses_netloc` of `urllib.parse`. -/
def uses_netloc : List (List Char) :=
  (["", "ftp", "http", "gopher", "nntp", "telnet", "imap", "wais", "file",
    "mms", "https", "shttp", "snews", "prospero", "rtsp", "rtsps", "rtspu",
    "rsync", "svn", "svn+ssh", "sftp", "nfs", "git", "git+ssh", "ws",
    "wss"] : List String).map String.data

/-- `uses_params` of `urllib.parse`. -/
def uses_params : List (List Char) :=
  (["", "ftp", "hdl", "prospero", "http", "imap", "https", "shttp", "rtsp",
    "rtsps", "rtspu", "sip", "sips", "mms", "sftp", "tel"] : List String).map
    String.data

/-- The scheme extraction of `urlsplit`: `i = url.find(':')`; the scheme is
split off (and lowered) when `i > 0`, `url[0]` is an ASCII letter and every
character of `url[:i]` is a scheme character; otherwise the url is left
whole (`none`). -/
def splitScheme (x : List Char) : Option (List Char × List Char) :=
  let pre := x.takeWhile (fun c => c != ':')
  if pre.length = x.length then none
  else
    match pre with
    | [] => none
    | c :: _ =>
        if c.isAlpha && pre.all isSchemeChar then
          some (pre.map Char.toLower, x.drop (pre.length + 1))
        else none

/-- The scheme stage as a total function: `(scheme, remaining url)`,
with `scheme = ''` when no scheme is split off. -/
def schemeSplitOf (x : List Char) : List Char × List Char :=
  match splitScheme x with
  | some sr => sr
  | none => ([], x)

/-- The netloc delimiters `'/?#'` of `_splitnetloc`. -/
def isNetlocDelim (c : Char) : Bool :=
  c = '/' || c = '?' || c = '#'

/-- `_splitnetloc(url, 2)`: the netloc runs from position 2 to the first
delimiter; the remainder keeps the delimiter. -/
def splitNetloc2 (x : List Char) : List Char × List Char :=
  ((x.drop 2).takeWhile (fun c => !isNetlocDelim c),
   (x.drop 2).dropWhile (fun c => !isNetlocDelim c))

/-- The netloc stage of `urlsplit`: only applied when the remaining url
starts with `//`.  (CPython additionally raises `ValueError` for netlocs
with unbalanced brackets or an invalid bracketed host, and `_checknetloc`
may raise for non-ASCII netlocs whose NFKC normalisation introduces a
delimiter; those raising checks are outside this embedding, which is
faithful for bracket-free netlocs that do not trigger them — in
`clean_job_url` a raise is caught and becomes `None`.) -/
def netlocSplitOf (x : List Char) : List Char × List Char :=
  if x.take 2 = ['/', '/'] then splitNetloc2 x else ([], x)

/-- Python `s.split(ch, 1)` when `ch` occurs in `s`: the part before the
first `ch` and the part after it. -/
def pySplit1 (ch : Char) (x : List Char) : List Char × List Char :=
  (x.takeWhile (fun c => c != ch), (x.dropWhile (fun c => c != ch)).drop 1)

/-- `if '#' in url: url, fragment = url.split('#', 1)`. -/
def fragSplitOf (x : List Char) : List Char × List Char :=
  if '#' ∈ x then pySplit1 '#' x else (x, [])

/-- `if '?' in url: url, query = url.split('?', 1)`. -/
def querySplitOf (x : List Char) : List Char × List Char :=
  if '?' ∈ x then pySplit1 '?' x else (x, [])

/-- The five components of `urlsplit`. -/
structure SplitResult where
  scheme : List Char
  netloc : List Char
  path : List Char
  query : List Char
  fragment : List Char
deriving DecidableEq, Repr

/-- `urlsplit(url)` with the default arguments `scheme=''`,
`allow_fragments=True` (as called by `urlparse` in `clean_job_url`):
lstrip C0 controls and space, remove `\t\r\n`, then split off scheme,
netloc (after `//`), fragment (first `#`) and query (first `?`). -/
def pyUrlsplit (url : List Char) : SplitResult :=
  { scheme := (schemeSplitOf (urlPre url)).1
    netloc := (netlocSplitOf (schemeSplitOf (urlPre url)).2).1
    path := (querySplitOf
      (fragSplitOf (netlocSplitOf (schemeSplitOf (urlPre url)).2).2).1).1
    query := (querySplitOf
      (fragSplitOf (netlocSplitOf (schemeSplitOf (urlPre url)).2).2).1).2
    fragment := (fragSplitOf (netlocSplitOf (schemeSplitOf (urlPre url)).2).2).2 }

/-- The part of a string after its last `/` (the whole string when there is
no `/`): the region `_splitparams` searches for `;`. -/
def afterLastSlash (l : List Char) : List Char :=
  (l.reverse.takeWhile (fun c => c != '/')).reverse

/-- `_splitparams(url)`: when the url contains a `/`, split at the first
`;` at or after the last `/` (no split if there is none); otherwise split
at the first `;`.  `urlparse` only calls it when `;` occurs in the url, so
the missing-`;` case of the no-slash branch is unreachable. -/
def splitparams (x : List Char) : List Char × List Char :=
  if '/' ∈ x then
    if ';' ∈ afterLastSlash x then
      (x.take (x.length - (afterLastSlash x).length) ++
        (pySplit1 ';' (afterLastSlash x)).1,
       (pySplit1 ';' (afterLastSlash x)).2)
    else (x, [])
  else pySplit1 ';' x

/-- The params stage of `urlparse`: split only when the scheme uses params
and the path contains a `;`. -/
def paramsSplitOf (scheme p : List Char) : List Char × List Char :=
  if scheme ∈ uses_params ∧ ';' ∈ p then splitparams p else (p, [])

/-- The six components of `urlparse`. -/
structure ParseResult where
  scheme : List Char
  netloc : List Char
  path : List Char
  params : List Char
  query : List Char
  fragment : List Char
deriving DecidableEq, Repr

/-- `urlparse(url)` with default arguments: `urlsplit` plus the params
split. -/
def pyUrlparse (url : List Char) : ParseResult :=
  { scheme := (pyUrlsplit url).scheme
    netloc := (pyUrlsplit url).netloc
    path := (paramsSplitOf (pyUrlsplit url).scheme (pyUrlsplit url).path).1
    params := (paramsSplitOf (pyUrlsplit url).scheme (pyUrlsplit url).path).2
    query := (pyUrlsplit url).query
    fragment := (pyUrlsplit url).fragment }

/-- `urlunparse`'s `if params: url = "%s;%s" % (url, params)`. -/
def rejoinParams (p prm : List Char) : List Char :=
  if prm = [] then p else p ++ ';' :: prm

/-- Splitting the params off a path and rejoining them (the composition a
parse/unparse round trip applies to the path). -/
def rejoinSplit (x : List Char) : List Char :=
  rejoinParams (splitparams x).1 (splitparams x).2

/-- `urlunsplit`'s `if url and url[:1] != '/': url = '/' + url`. -/
def slashPrep (p : List Char) : List Char :=
  if p ≠ [] ∧ p.take 1 ≠ ['/'] then '/' :: p else p

/-- `urlunsplit`'s netloc branch (CPython 3.11 condition):
`if netloc or (scheme and scheme in uses_netloc and url[:2] != '//'):
url = '//' + (netloc or '') + url`. -/
def netlocAssemble (s n p : List Char) : List Char :=
  if n ≠ [] ∨ (s ≠ [] ∧ s ∈ uses_netloc ∧ p.take 2 ≠ ['/', '/']) then
    '/' :: '/' :: (n ++ slashPrep p)
  else p

/-- `if scheme: url = scheme + ':' + url`. -/
def addScheme (s u : List Char) : List Char :=
  if s ≠ [] then s ++ ':' :: u else u

/-- `if query: url = url + '?' + query`. -/
def addQuery (q u : List Char) : List Char :=
  if q ≠ [] then u ++ '?' :: q else u

/-- `if fragment: url = url + '#' + fragment`. -/
def addFragment (f u : List Char) : List Char :=
  if f ≠ [] then u ++ '#' :: f else u

/-- `urlunsplit((scheme, netloc, url, query, fragment))`. -/
def pyUrlunsplit (s n p q f : List Char) : List Char :=
  addFragment f (addQuery q (addScheme s (netlocAssemble s n p)))

/-- `urlunparse`: rejoin the params to the path, then `urlunsplit`. -/
def pyUrlunparse (pr : ParseResult) : List Char :=
  pyUrlunsplit pr.scheme pr.netloc (rejoinParams pr.path pr.params)
    pr.query pr.fragment

/-- `urlunparse(urlparse(url)._replace(query='', fragment=''))`, the body
of `clean_job_url` after the strip. -/
def cleanCore (x : List Char) : List Char :=
  pyUrlunparse { pyUrlparse x with query := [], fragment := [] }

/-- `clean_job_url` (`url_utils.py` lines 8-37): `None` for a falsy input,
otherwise parse the stripped url, drop query and fragment, reassemble, and
`None` again if the result is falsy.  (The `except` branch returns `None`
exactly when `urlparse` raises; see `netlocSplitOf` for the raising checks
outside this embedding.) -/
def clean_job_url (url : String) : Option String :=
  if url = "" then none
  else
    if cleanCore (pyStripFull url.data) = [] then none
    else some (String.mk (cleanCore (pyStripFull url.data)))

/-! ## URL-based duplicate checks (`job_metadata_service.py`, `marqo_service.py`)

The database lookup of `_check_duplicate_by_clean_url` is abstracted as a
function `query : String → Except Unit Bool`: `ok b` is the outcome of
`db.query(JobMetadataDB).filter(url == clean_url).first() is not None`,
`error` an exception raised during the query. -/

namespace JobMetadataService

/-- `_check_duplicate_by_clean_url` (lines 44-68): falsy url gives
`False`; an exception in the lookup is caught and gives `False`. -/
def check_duplicate_by_clean_url (query : String → Except Unit Bool)
    (clean_url : String) : Bool :=
  if clean_url = "" then false
  else
    match query clean_url with
    | Except.ok b => b
    | Except.error _ => false

/-- `check_duplicate_by_url` (lines 16-43): falsy url or an uncleanable
url gives `False`, otherwise look up the cleaned url. -/
def check_duplicate_by_url (query : String → Except Unit Bool)
    (url : String) : Bool :=
  if url = "" then false
  else
    match clean_job_url url with
    | none => false
    | some cu => check_duplicate_by_clean_url query cu

end JobMetadataService

namespace MarqoService

/-- `_generate_synthetic_url` (marqo_service.py lines 247-267):
`synthetic://{source}/{sha256(source|title|company_name|location)}`.  The
SHA-256 hex digest is abstracted by the hashed content itself, the same
injective stand-in used for content hashes. -/
def generate_synthetic_url (j : JobCreate) : String :=
  "synthetic://" ++ j.source ++ "/" ++
    (j.source ++ "|" ++ j.title ++ "|" ++ j.company_name ++ "|" ++
      j.location.getD "")

/-- `check_duplicate_job` (marqo_service.py lines 221-245): check by
`original_url` when truthy, else by the synthetic url; its own
`except Exception` is unreachable here because the callee catches. -/
def check_duplicate_job (query : String → Except Unit Bool)
    (j : JobCreate) : Bool :=
  if !j.original_url.isEmpty then
    JobMetadataService.check_duplicate_by_url query j.original_url
  else
    JobMetadataService.check_duplicate_by_url query (generate_synthetic_url j)

end MarqoService

/-! # Theorems -/

theorem oldestStep_none (p : String × CrawlJobProgress) : oldestStep none p = some p := rfl

theorem oldestStep_some (s p : String × CrawlJobProgress) :
    oldestStep (some s) p =
      if p.2.started_at < s.2.started_at then some p else some s := rfl

theorem oldestEntry_foldl_ne_none (l : List (String × CrawlJobProgress))
    (q : String × CrawlJobProgress) :
    l.foldl oldestStep (some q) ≠ none := by
  induction l generalizing q with
  | nil => intro hq; cases hq
  | cons r t ih =>
      simp only [List.foldl_cons, oldestStep_some]
      by_cases hlt : r.2.started_at < q.2.started_at
      · simpa [hlt] using ih r
      · simpa [hlt] using ih q

theorem oldestEntry_ne_none (m : List (String × CrawlJobProgress)) (hm : m ≠ []) :
    oldestEntry m ≠ none := by
  cases m with
  | nil => exact absurd rfl hm
  | cons p t =>
      unfold oldestEntry
      simp only [List.foldl_cons, oldestStep_none]
      exact oldestEntry_foldl_ne_none t p

theorem oldestKey_foldl_mem (l : List (String × CrawlJobProgress))
    (acc : Option (String × CrawlJobProgress)) :
    ∀ p, l.foldl oldestStep acc = some p → p ∈ l ∨ acc = some p := by
  induction l generalizing acc with
  | nil => intro p hp; exact Or.inr hp
  | cons q t ih =>
      intro p hp
      simp only [List.foldl_cons] at hp
      rcases ih _ p hp with h | h
      · exact Or.inl (List.mem_cons_of_mem q h)
      · cases acc with
        | none =>
            rw [oldestStep_none] at h
            exact Or.inl (by rw [← Option.some_inj.mp h]; exact List.mem_cons_self q t)
        | some r =>
            rw [oldestStep_some] at h
            by_cases hlt : q.2.started_at < r.2.started_at
            · rw [if_pos hlt] at h
              exact Or.inl (by rw [← Option.some_inj.mp h]; exact List.mem_cons_self q t)
            · rw [if_neg hlt] at h
              exact Or.inr h

theorem oldestKey_mem (m : List (String × CrawlJobProgress)) (k : String)
    (h : oldestKey m = some k) : ∃ v, (k, v) ∈ m := by
  unfold oldestKey oldestEntry at h
  rcases Option.map_eq_some'.mp h with ⟨p, hp, hpk⟩
  rcases oldestKey_foldl_mem m none p hp with hm | hnone
  · exact ⟨p.2, by rw [← hpk]; exact hm⟩
  · cases hnone

theorem oldestEntry_foldl_le (t : List (String × CrawlJobProgress))
    (s : String × CrawlJobProgress) :
    ∀ p, t.foldl oldestStep (some s) = some p → p.2.started_at ≤ s.2.started_at := by
  induction t generalizing s with
  | nil =>
      intro p hp
      simp only [List.foldl_nil, Option.some_inj] at hp
      rw [← hp]
  | cons r t ih =>
      intro p hp
      simp only [List.foldl_cons, oldestStep_some] at hp
      by_cases hlt : r.2.started_at < s.2.started_at
      · rw [if_pos hlt] at hp
        exact le_trans (ih r p hp) (le_of_lt hlt)
      · rw [if_neg hlt] at hp
        exact ih s p hp

theorem oldestEntry_min (m : List (String × CrawlJobProgress)) :
    ∀ p, oldestEntry m = some p → ∀ q ∈ m, p.2.started_at ≤ q.2.started_at := by
  unfold oldestEntry
  suffices H : ∀ (l : List (String × CrawlJobProgress))
      (acc : Option (String × CrawlJobProgress)) (p : String × CrawlJobProgress),
      l.foldl oldestStep acc = some p →
      ∀ q ∈ l, p.2.started_at ≤ q.2.started_at by
    intro p hp q hq
    exact H m none p hp q hq
  intro l
  induction l with
  | nil => intro acc p _ q hq; cases hq
  | cons r t ih =>
      intro acc p hp q hq
      simp only [List.foldl_cons] at hp
      rcases List.mem_cons.mp hq with hqr | hqt
      · subst hqr
        cases acc with
        | none =>
            rw [oldestStep_none] at hp
            exact oldestEntry_foldl_le t q p hp
        | some s =>
            rw [oldestStep_some] at hp
            by_cases hlt : q.2.started_at < s.2.started_at
            · rw [if_pos hlt] at hp
              exact oldestEntry_foldl_le t q p hp
            · rw [if_neg hlt] at hp
              exact le_trans (oldestEntry_foldl_le t s p hp) (le_of_not_lt hlt)
      · exact ih _ p hp q hqt

theorem dictErase_length_lt (m : List (String × CrawlJobProgress)) (k : String)
    (h : ∃ v, (k, v) ∈ m) : (dictErase m k).length < m.length := by
  obtain ⟨v, hv⟩ := h
  unfold dictErase
  exact List.length_filter_lt_length_iff_exists.mpr ⟨(k, v), hv, by simp⟩

/-- After an eviction check the cache respects the bound. -/
theorem moveToCompleted_bound (st : ProgressState) (jobId : String)
    (h : st.completed.length ≤ maxCompletedJobs) :
    (moveToCompleted st jobId).completed.length ≤ maxCompletedJobs := by
  unfold moveToCompleted
  cases hget : dictGet st.active jobId with
  | none => simpa [hget] using h
  | some job =>
      simp only
      have hlen : (dictInsert st.completed jobId job).length ≤ maxCompletedJobs + 1 :=
        le_trans (dictInsert_length_le _ _ _) (by omega)
      by_cases hbig : maxCompletedJobs < (dictInsert st.completed jobId job).length
      · cases hok : oldestKey (dictInsert st.completed jobId job) with
        | none =>
            exfalso
            have hne : dictInsert st.completed jobId job ≠ [] := by
              intro hnil
              rw [hnil] at hbig
              simp [maxCompletedJobs] at hbig
            exact oldestEntry_ne_none _ hne (Option.map_eq_none'.mp hok)
        | some k =>
            have hlt := dictErase_length_lt (dictInsert st.completed jobId job) k
              (oldestKey_mem _ k hok)
            rw [if_pos hbig]
            show (dictErase (dictInsert st.completed jobId job) k).length ≤ maxCompletedJobs
            omega
      · rw [if_neg hbig]
        omega

/-! ### Claim C2: derivation of the overall job status -/

/-- C2 counterexample.  The claim states the job status is `Failed` iff any
step is `Failed`; but `_update_job_status` checks for a `RUNNING` step
first, so a job with one step still `RUNNING` and another `FAILED` (which
the code can reach, e.g. when the browser-start step is still running while
the crawl step fails) is reported `RUNNING`, not `FAILED`. -/
theorem claim_C2_counterexample :
    updateJobStatus [CrawlStepStatus.running, CrawlStepStatus.failed] CrawlStepStatus.pending =
      CrawlStepStatus.running ∧
    CrawlStepStatus.failed ∈ [CrawlStepStatus.running, CrawlStepStatus.failed] ∧
    updateJobStatus [CrawlStepStatus.running, CrawlStepStatus.failed] CrawlStepStatus.pending ≠
      CrawlStepStatus.failed := by
  decide

/-- C2 (amended).  A crawl job's status is derived from its steps in
priority order: `Running` if any step is `Running`; otherwise `Failed` if
any step is `Failed`; otherwise `Completed` if every step is `Completed` or
`Skipped`; otherwise the job's current status is left unchanged. -/
theorem claim_C2_amended (steps : StepList) (cur : CrawlStepStatus) :
    (steps.any (· = CrawlStepStatus.running) = true →
      updateJobStatus steps cur = CrawlStepStatus.running) ∧
    (steps.any (· = CrawlStepStatus.running) = false →
      steps.any (· = CrawlStepStatus.failed) = true →
      updateJobStatus steps cur = CrawlStepStatus.failed) ∧
    (steps.any (· = CrawlStepStatus.running) = false →
      steps.any (· = CrawlStepStatus.failed) = false →
      steps.all (fun s => s = CrawlStepStatus.completed ∨ s = CrawlStepStatus.skipped) = true →
      updateJobStatus steps cur = CrawlStepStatus.completed) ∧
    (steps.any (· = CrawlStepStatus.running) = false →
      steps.any (· = CrawlStepStatus.failed) = false →
      steps.all (fun s => s = CrawlStepStatus.completed ∨ s = CrawlStepStatus.skipped) = false →
      updateJobStatus steps cur = cur) := by
  refine ⟨?_, ?_, ?_, ?_⟩
  · intro h1
    simp only [updateJobStatus, h1, if_true]
  · intro h1 h2
    simp only [updateJobStatus, h1, h2, Bool.false_eq_true, if_false, if_true]
  · intro h1 h2 h3
    simp only [updateJobStatus, h1, h2, h3, Bool.false_eq_true, if_false, if_true]
  · intro h1 h2 h3
    simp only [updateJobStatus, h1, h2, h3, Bool.false_eq_true, if_false]

/-- Witness for `claim_C2_amended` at a concrete job. -/
theorem claim_C2_amended_witness :
    updateJobStatus [CrawlStepStatus.completed, CrawlStepStatus.skipped] CrawlStepStatus.running =
      CrawlStepStatus.completed :=
  (claim_C2_amended [CrawlStepStatus.completed, CrawlStepStatus.skipped]
      CrawlStepStatus.running).2.2.1 (by decide) (by decide) (by decide)

/-! ### Claim C9: the completed-jobs cache is bounded -/

/-- C9.  After every transition of a job from active to completed the
completed-jobs map holds at most `max_completed_jobs = 50` entries, and
when the insertion pushes the map over that bound the entry with the
smallest `started_at` (first such entry in insertion order) is the one
evicted. -/
theorem claim_C9_completed_cache_bounded (st : ProgressState) (jobId : String)
    (h : st.completed.length ≤ maxCompletedJobs) :
    (moveToCompleted st jobId).completed.length ≤ maxCompletedJobs ∧
    (∀ job, dictGet st.active jobId = some job →
      maxCompletedJobs < (dictInsert st.completed jobId job).length →
      ∃ p, oldestEntry (dictInsert st.completed jobId job) = some p ∧
        (moveToCompleted st jobId).completed =
          dictErase (dictInsert st.completed jobId job) p.1 ∧
        ∀ q ∈ dictInsert st.completed jobId job, p.2.started_at ≤ q.2.started_at) := by
  refine ⟨moveToCompleted_bound st jobId h, ?_⟩
  intro job hget hbig
  have hne : dictInsert st.completed jobId job ≠ [] := by
    intro hnil
    rw [hnil] at hbig
    simp [maxCompletedJobs] at hbig
  cases hoe : oldestEntry (dictInsert st.completed jobId job) with
  | none => exact absurd hoe (oldestEntry_ne_none _ hne)
  | some p =>
      refine ⟨p, rfl, ?_, oldestEntry_min _ p hoe⟩
      unfold moveToCompleted
      rw [hget]
      simp only
      rw [if_pos hbig]
      unfold oldestKey
      rw [hoe]
      rfl

/-- Witness for `claim_C9_completed_cache_bounded` at a concrete state. -/
theorem claim_C9_completed_cache_bounded_witness :
    (moveToCompleted ⟨[("j1", ⟨"j1", "TopCV", CrawlStepStatus.completed, [], 7, 0, 0, 0, [], none⟩)],
        []⟩ "j1").completed.length ≤ maxCompletedJobs :=
  (claim_C9_completed_cache_bounded
    ⟨[("j1", ⟨"j1", "TopCV", CrawlStepStatus.completed, [], 7, 0, 0, 0, [], none⟩)], []⟩
    "j1" (by decide)).1

/-! ### `SequenceMatcher` on identical sequences -/

theorem flmRowGo_stable (ai : Char) (i : Nat) (old : Nat → Nat)
    (hb : ∀ j, old j ≤ i) :
    ∀ (rest : List Char) (j : Nat) (best : FlmBest), i + 1 ≤ best.size →
      flmRowGo ai i old rest j best = best := by
  intro rest
  induction rest with
  | nil => intro j best _; rfl
  | cons c rest' ih =>
      intro j best hbest
      show flmRowGo ai i old (c :: rest') j best = best
      unfold flmRowGo
      have hstep :
          (if c = ai then
            (let k := (if j = 0 then 0 else old (j - 1)) + 1
             if best.size < k then (⟨i + 1 - k, j + 1 - k, k⟩ : FlmBest) else best)
          else best) = best := by
        by_cases hc : c = ai
        · rw [if_pos hc]
          have hk : (if j = 0 then 0 else old (j - 1)) + 1 ≤ i + 1 := by
            by_cases hj : j = 0
            · simp [hj]
            · rw [if_neg hj]
              exact Nat.succ_le_succ (hb (j - 1))
          have : ¬ best.size < (if j = 0 then 0 else old (j - 1)) + 1 := by omega
          simp only [this, if_neg, if_false]
        · rw [if_neg hc]
      rw [hstep]
      exact ih (j + 1) best hbest

theorem flmRowGo_refl_scan (l : List Char) (ai : Char) (i : Nat) (old : Nat → Nat)
    (hai : l.get? i = some ai)
    (hb : ∀ j, old j ≤ i) (hjb : ∀ j, old j ≤ j + 1)
    (hdiag : (if i = 0 then 0 else old (i - 1)) = i) :
    ∀ (rest : List Char) (j : Nat), rest = l.drop j → j ≤ i →
      flmRowGo ai i old rest j ⟨0, 0, i⟩ = ⟨0, 0, i + 1⟩ := by
  intro rest
  induction rest with
  | nil =>
      intro j hdrop hji
      exfalso
      have hlen : l.length ≤ j := by
        have := congrArg List.length hdrop
        simp only [List.length_nil, List.length_drop] at this
        omega
      have : l.get? i = none := List.get?_eq_none.mpr (by omega)
      rw [this] at hai
      cases hai
  | cons c rest' ih =>
      intro j hdrop hji
      have hcj : l.get? j = some c := by
        have := List.get?_drop l j 0
        rw [← hdrop] at this
        simpa using this.symm
      have hrest' : rest' = l.drop (j + 1) := by
        rw [← List.tail_drop l j, ← hdrop]
        rfl
      show flmRowGo ai i old (c :: rest') j ⟨0, 0, i⟩ = ⟨0, 0, i + 1⟩
      unfold flmRowGo
      by_cases hij : j = i
      · subst hij
        have hc : c = ai := by
          rw [hcj] at hai
          exact Option.some_inj.mp hai
        have hk : (if j = 0 then 0 else old (j - 1)) + 1 = j + 1 := by rw [hdiag]
        simp only [hc, if_pos, hk]
        have hlt : (⟨0, 0, j⟩ : FlmBest).size < j + 1 := Nat.lt_succ_self j
        simp only [hlt, if_pos, if_true]
        have hsub : j + 1 - (j + 1) = 0 := Nat.sub_self (j + 1)
        rw [hsub]
        exact flmRowGo_stable ai j old hb rest' (j + 1) ⟨0, 0, j + 1⟩ (le_refl _)
      · have hjlt : j < i := lt_of_le_of_ne hji hij
        have hstep :
            (if c = ai then
              (let k := (if j = 0 then 0 else old (j - 1)) + 1
               if (⟨0, 0, i⟩ : FlmBest).size < k then (⟨i + 1 - k, j + 1 - k, k⟩ : FlmBest)
               else ⟨0, 0, i⟩)
            else ⟨0, 0, i⟩) = (⟨0, 0, i⟩ : FlmBest) := by
          by_cases hc : c = ai
          · rw [if_pos hc]
            have hk : (if j = 0 then 0 else old (j - 1)) + 1 ≤ i := by
              by_cases hj : j = 0
              · simp only [hj, if_pos]
                omega
              · rw [if_neg hj]
                have := hjb (j - 1)
                omega
            have : ¬ (⟨0, 0, i⟩ : FlmBest).size < (if j = 0 then 0 else old (j - 1)) + 1 := by
              show ¬ i < _
              omega
            simp only [this, if_neg, if_false]
          · rw [if_neg hc]
        rw [hstep]
        exact ih (j + 1) hrest' hjlt

theorem flmGo_refl (l : List Char) :
    ∀ (rows : List Char) (i : Nat) (old : Nat → Nat), rows = l.drop i → i ≤ l.length →
      (∀ j, old j ≤ i) → (∀ j, old j ≤ j + 1) →
      ((if i = 0 then 0 else old (i - 1)) = i) →
      flmGo l rows i old ⟨0, 0, i⟩ = ⟨0, 0, l.length⟩ := by
  intro rows
  induction rows with
  | nil =>
      intro i old hdrop hile _ _ _
      have hlen : l.length ≤ i := by
        have := congrArg List.length hdrop
        simp only [List.length_nil, List.length_drop] at this
        omega
      have : i = l.length := le_antisymm hile hlen
      rw [show flmGo l [] i old ⟨0, 0, i⟩ = ⟨0, 0, i⟩ from rfl, this]
  | cons c rest ih =>
      intro i old hdrop hile hb hjb hdiag
      have hilen : i < l.length := by
        by_contra hge
        rw [List.drop_eq_nil_of_le (by omega)] at hdrop
        cases hdrop
      have hcget : l.get? i = some c := by
        have := List.get?_drop l i 0
        rw [← hdrop] at this
        simpa using this.symm
      have hrest : rest = l.drop (i + 1) := by
        rw [← List.tail_drop l i, ← hdrop]
        rfl
      show flmGo l (c :: rest) i old ⟨0, 0, i⟩ = ⟨0, 0, l.length⟩
      unfold flmGo
      rw [flmRowGo_refl_scan l c i old hcget hb hjb hdiag l 0 rfl (Nat.zero_le i)]
      apply ih (i + 1) (flmNewRow l c old) hrest (by omega)
      · intro j
        unfold flmNewRow
        by_cases hj : l.get? j = some c
        · rw [if_pos hj]
          by_cases hj0 : j = 0
          · simp [hj0]
          · rw [if_neg hj0]
            exact Nat.succ_le_succ (hb (j - 1))
        · rw [if_neg hj]
          omega
      · intro j
        unfold flmNewRow
        by_cases hj : l.get? j = some c
        · rw [if_pos hj]
          by_cases hj0 : j = 0
          · simp [hj0]
          · rw [if_neg hj0]
            have := hjb (j - 1)
            omega
        · rw [if_neg hj]
          omega
      · have : i + 1 - 1 = i := rfl
        rw [if_neg (Nat.succ_ne_zero i), this]
        unfold flmNewRow
        rw [if_pos hcget, hdiag]

theorem findLongestMatch_refl (l : List Char) :
    findLongestMatch l l = ⟨0, 0, l.length⟩ := by
  unfold findLongestMatch
  exact flmGo_refl l l 0 (fun _ => 0) rfl (Nat.zero_le _)
    (fun _ => le_refl 0) (fun j => Nat.zero_le _) rfl

theorem matchesTotalGo_nil (b : List Char) (n : Nat) : matchesTotalGo b n [] [] = 0 := by
  cases n <;> rfl

theorem matchesTotalGo_succ_refl (fuel : Nat) (l : List Char) :
    matchesTotalGo l (fuel + 1) l l = l.length := by
  unfold matchesTotalGo
  rw [findLongestMatch_refl l]
  by_cases h0 : l.length = 0
  · simp [h0]
  · simp [h0, matchesTotalGo_nil, List.drop_length]

theorem matchesTotal_refl (l : List Char) : matchesTotal l l = l.length := by
  cases l with
  | nil => rfl
  | cons c t => exact matchesTotalGo_succ_refl t.length (c :: t)

theorem pyRatio_refl (l : List Char) : pyRatio l l = 1 := by
  unfold pyRatio
  by_cases hl : l.length + l.length = 0
  · rw [if_pos hl]
  · rw [if_neg hl, matchesTotal_refl]
    have hll : ((l.length + l.length : Nat) : ℚ) = 2 * (l.length : ℚ) := by
      push_cast
      ring
    rw [hll]
    have hne : (l.length : ℚ) ≠ 0 := by
      have : l.length ≠ 0 := by omega
      exact_mod_cast this
    field_simp

/-! ### Claims C4 and C6: the deduplication engine -/

theorem find?_append_isSome {α : Type} (p : α → Bool) (l : List α) (x : α)
    (hx : p x = true) : ∃ y, (l ++ [x]).find? p = some y := by
  induction l with
  | nil => exact ⟨x, by simp [List.find?, hx]⟩
  | cons a t ih =>
      by_cases ha : p a = true
      · exact ⟨a, by rw [List.cons_append, List.find?_cons_of_pos _ ha]⟩
      · rw [List.cons_append, List.find?_cons_of_neg _ (by simpa using ha)]
        exact ih

/-- A call on a store that already matches the posting by source-id (when
the posting carries one) or by content hash (when it does not) reports a
duplicate. -/
theorem check_and_store_job_dup (db : DedupDb) (j : JobCreate) (marqo : Option String)
    (newId now : String)
    (hsid : truthyOpt j.source_id = true →
      ∃ y, db.metadata.find?
        (fun r => decide (r.source = j.source ∧ r.source_job_id = j.source_id)) = some y)
    (hhash : truthyOpt j.source_id = false →
      ∃ y, db.metadata.find?
        (fun r => decide (r.content_hash = JobDeduplicationService.generate_content_hash j)) =
        some y) :
    (JobDeduplicationService.check_and_store_job db j marqo newId now).is_new = false := by
  unfold JobDeduplicationService.check_and_store_job
  by_cases ht : truthyOpt j.source_id = true
  · obtain ⟨y, hy⟩ := hsid ht
    have hcbs : (if truthyOpt j.source_id then JobDeduplicationService.check_by_source_id db j
        else none) = some y := by
      rw [if_pos ht]
      unfold JobDeduplicationService.check_by_source_id
      rw [if_pos ht]
      exact hy
    rw [hcbs]
  · have ht' : truthyOpt j.source_id = false := by
      cases h : truthyOpt j.source_id
      · rfl
      · exact absurd h ht
    obtain ⟨y, hy⟩ := hhash ht'
    have h1 : (if truthyOpt j.source_id then JobDeduplicationService.check_by_source_id db j
        else none) = none := if_neg ht
    have h2 : JobDeduplicationService.check_by_content_hash db
        (JobDeduplicationService.generate_content_hash j) = some y := by
      unfold JobDeduplicationService.check_by_content_hash
      exact hy
    rw [h1, h2]

/-- C4.  If the first call on a posting reports `New` (the posting is
stored together with its source-id and content-hash fingerprints), a
second call on the same posting against the resulting store reports
`Duplicate`. -/
theorem claim_C4_idempotent_ingestion (db : DedupDb) (j : JobCreate)
    (m1 : Option String) (id1 t1 : String) (m2 : Option String) (id2 t2 : String)
    (h : (JobDeduplicationService.check_and_store_job db j m1 id1 t1).is_new = true) :
    (JobDeduplicationService.check_and_store_job
      (JobDeduplicationService.check_and_store_job db j m1 id1 t1).db j m2 id2 t2).is_new =
      false := by
  -- in every branch in which the first call answers `New`, the resulting
  -- store is `db.metadata ++ [row]` for the freshly fingerprinted row
  have hstore :
      (JobDeduplicationService.check_and_store_job db j m1 id1 t1).is_new = true →
      (JobDeduplicationService.check_and_store_job db j m1 id1 t1).db.metadata =
        db.metadata ++
          [(JobDeduplicationService.store_new_job db j
            (JobDeduplicationService.generate_content_hash j) m1 id1 t1).2] := by
    unfold JobDeduplicationService.check_and_store_job
    cases h1 : (if truthyOpt j.source_id then JobDeduplicationService.check_by_source_id db j
        else none) with
    | some ex => intro hfalse; exact Bool.noConfusion hfalse
    | none =>
        cases h2 : JobDeduplicationService.check_by_content_hash db
            (JobDeduplicationService.generate_content_hash j) with
        | some ex => intro hfalse; exact Bool.noConfusion hfalse
        | none =>
            cases h3 : JobDeduplicationService.check_by_fuzzy_match db j with
            | some sim =>
                intro hfalse
                by_cases hsc : (0.85 : ℚ) < JobDeduplicationService.calculate_similarity sim j
                · simp only [if_pos hsc] at hfalse
                  exact Bool.noConfusion hfalse
                · simp only [if_neg hsc]
                  rfl
            | none => intro _; rfl
  have hmeta := hstore h
  apply check_and_store_job_dup
  · intro ht
    rw [hmeta]
    apply find?_append_isSome
    unfold JobDeduplicationService.store_new_job
    simp
  · intro _
    rw [hmeta]
    apply find?_append_isSome
    unfold JobDeduplicationService.store_new_job
    simp

/-- Witness for `claim_C4_idempotent_ingestion`: ingesting a concrete
posting twice into an initially empty store. -/
theorem claim_C4_idempotent_ingestion_witness :
    (JobDeduplicationService.check_and_store_job
      (JobDeduplicationService.check_and_store_job ⟨[], []⟩ jobC4 none "id1" "t1").db
      jobC4 none "id2" "t2").is_new = false :=
  claim_C4_idempotent_ingestion ⟨[], []⟩ jobC4 none "id1" "t1" none "id2" "t2" (by decide)

/-- `ratio()` evaluated through a computed match count (`Rat` operations do
not reduce in the kernel, so concrete ratios are computed by first deciding
the `Nat`-valued `matchesTotal` and then normalising in `ℚ`). -/
theorem pyRatio_eval (a b : List Char) (m la lb : Nat)
    (hm : matchesTotal a b = m) (ha : a.length = la) (hb : b.length = lb)
    (h0 : ¬ la + lb = 0) :
    pyRatio a b = 2 * (m : ℚ) / ((la + lb : Nat) : ℚ) := by
  unfold pyRatio
  rw [hm, ha, hb, if_neg h0]

theorem sim_simRowA_simJobB :
    JobDeduplicationService.calculate_similarity simRowA simJobB = 7 / 10 := by
  show pyRatio "ab!cd?ef".data "ef.ab,cd".data * (0.6 : ℚ) +
    pyRatio "co".data "co".data * (0.4 : ℚ) = 7 / 10
  rw [pyRatio_eval "ab!cd?ef".data "ef.ab,cd".data 4 8 8 (by decide) (by decide) (by decide)
      (by decide), pyRatio_refl]
  norm_num

theorem sim_simRowB_simJobA :
    JobDeduplicationService.calculate_similarity simRowB simJobA = 11 / 20 := by
  show pyRatio "ef.ab,cd".data "ab!cd?ef".data * (0.6 : ℚ) +
    pyRatio "co".data "co".data * (0.4 : ℚ) = 11 / 20
  rw [pyRatio_eval "ef.ab,cd".data "ab!cd?ef".data 2 8 8 (by decide) (by decide) (by decide)
      (by decide), pyRatio_refl]
  norm_num

/-- C6 counterexample.  `calculate_similarity` is not symmetric:
`SequenceMatcher.ratio` depends on the argument order (the greedy
longest-block decomposition ties are broken by position in the first
argument), so swapping the stored row and the candidate changes the score
(`0.7` versus `0.55` on these titles). -/
theorem claim_C6_counterexample :
    JobDeduplicationService.calculate_similarity simRowA simJobB = 7 / 10 ∧
    JobDeduplicationService.calculate_similarity simRowB simJobA = 11 / 20 ∧
    JobDeduplicationService.calculate_similarity simRowA simJobB ≠
      JobDeduplicationService.calculate_similarity simRowB simJobA := by
  refine ⟨sim_simRowA_simJobB, sim_simRowB_simJobA, ?_⟩
  rw [sim_simRowA_simJobB, sim_simRowB_simJobA]
  norm_num

/-- C6 (amended).  The fuzzy similarity `0.6 * titleRatio + 0.4 *
companyRatio` is reflexive (`1.0` when the stored and candidate
title/company agree), and — with the two exact tiers silent and exactly one
fuzzy candidate `r` — the engine flags a duplicate exactly when the score
strictly exceeds `0.85`; symmetry, however, does not hold in general (see
the counterexample). -/
theorem claim_C6_amended :
    (∀ (e : JobMetadataRow) (p : JobCreate),
        e.title.getD "" = p.title → e.company_name.getD "" = p.company_name →
        JobDeduplicationService.calculate_similarity e p = 1) ∧
    (∀ (db : DedupDb) (j : JobCreate) (marqo : Option String) (newId now : String)
        (r : JobMetadataRow),
        (if truthyOpt j.source_id then JobDeduplicationService.check_by_source_id db j
          else none) = none →
        JobDeduplicationService.check_by_content_hash db
          (JobDeduplicationService.generate_content_hash j) = none →
        (db.metadata.filter (fun r =>
            ilikeContains r.title (firstThreeWords j.title) &&
            ilikeContains r.company_name j.company_name)).take 5 = [r] →
        ((JobDeduplicationService.check_and_store_job db j marqo newId now).is_new = false ↔
          (0.85 : ℚ) < JobDeduplicationService.calculate_similarity r j)) := by
  constructor
  · intro e p ht hc
    unfold JobDeduplicationService.calculate_similarity
    rw [ht, hc, pyRatio_refl, pyRatio_refl]
    norm_num
  · intro db j marqo newId now r h1 h2 h3
    unfold JobDeduplicationService.check_and_store_job
    rw [h1, h2]
    unfold JobDeduplicationService.check_by_fuzzy_match
    rw [h3]
    by_cases hs : (0.85 : ℚ) < JobDeduplicationService.calculate_similarity r j
    · rw [List.find?_cons_of_pos _ (by simpa using hs)]
      simp [hs]
    · rw [List.find?_cons_of_neg _ (by simpa using hs)]
      simp [hs]

set_option maxRecDepth 4000 in
theorem sim_row86_job86 :
    JobDeduplicationService.calculate_similarity row86 job86 = 43 / 50 := by
  show pyRatio "aaaaaaaaaxy".data "aaaaaaaaa".data * (0.6 : ℚ) +
    pyRatio "aaaaxx".data "aaaa".data * (0.4 : ℚ) = 43 / 50
  rw [pyRatio_eval "aaaaaaaaaxy".data "aaaaaaaaa".data 9 11 9 (by decide) (by decide)
      (by decide) (by decide),
    pyRatio_eval "aaaaxx".data "aaaa".data 4 6 4 (by decide) (by decide) (by decide)
      (by decide)]
  norm_num

set_option maxRecDepth 4000 in
theorem sim_row84_job84 :
    JobDeduplicationService.calculate_similarity row84 job84 = 21 / 25 := by
  show pyRatio "aaaaaaaaaxy".data "aaaaaaaaa".data * (0.6 : ℚ) +
    pyRatio "aaaxy".data "aaa".data * (0.4 : ℚ) = 21 / 25
  rw [pyRatio_eval "aaaaaaaaaxy".data "aaaaaaaaa".data 9 11 9 (by decide) (by decide)
      (by decide) (by decide),
    pyRatio_eval "aaaxy".data "aaa".data 3 5 3 (by decide) (by decide) (by decide)
      (by decide)]
  norm_num

/-- Witness for `claim_C6_amended`: similarity `1` on an identical pair; a
candidate scoring `0.86` is rejected as a fuzzy duplicate; a candidate
scoring `0.84` is stored as new. -/
theorem claim_C6_amended_witness :
    JobDeduplicationService.calculate_similarity simRowRefl simJobRefl = 1 ∧
    (JobDeduplicationService.check_and_store_job db86 job86 none "id" "t").is_new = false ∧
    (JobDeduplicationService.check_and_store_job db84 job84 none "id" "t").is_new = true := by
  refine ⟨claim_C6_amended.1 simRowRefl simJobRefl (by decide) (by decide), ?_, ?_⟩
  · exact (claim_C6_amended.2 db86 job86 none "id" "t" row86 (by decide) (by decide)
      (by decide)).mpr (by rw [sim_row86_job86]; norm_num)
  · have h := claim_C6_amended.2 db84 job84 none "id" "t" row84 (by decide) (by decide)
      (by decide)
    have hns : ¬ (0.85 : ℚ) < JobDeduplicationService.calculate_similarity row84 job84 := by
      rw [sim_row84_job84]
      norm_num
    cases hb : (JobDeduplicationService.check_and_store_job db84 job84 none "id" "t").is_new with
    | false => exact absurd (h.mp hb) hns
    | true => rfl

/-! ### Claim C1: tier order of the duplicate checks -/

/-- C1 counterexample.  The claim's four-tier order (native-ID, canonical
URL, content hash, fuzzy) does not hold of
`JobDeduplicationService.check_and_store_job`: that service has no URL tier
at all, so a posting whose `original_url` exactly matches a stored row — and
which no other tier catches — is stored as a brand-new job. -/
theorem claim_C1_counterexample :
    (dbC1.metadata.find? (fun r => decide (r.original_url = some jobC1.original_url))).isSome =
      true ∧
    (JobDeduplicationService.check_and_store_job dbC1 jobC1 none "id" "t").is_new = true := by
  exact ⟨by decide, by decide⟩

/-- C1 (amended).  `SimpleDuplicateChecker.is_duplicate` runs its four
tiers in the order source-id, raw-URL equality (not canonicalised), content
hash, fuzzy, and stops at the first tier that matches;
`JobDeduplicationService.check_and_store_job` runs only three tiers —
source-id, content hash, fuzzy — in that order with the same early exit,
and has no URL tier. -/
theorem claim_C1_amended (db : DedupDb) (j : JobCreate) (marqo : Option String)
    (newId now : String) :
    ((if truthyOpt j.source_id then SimpleDuplicateChecker.check_by_source_id db j
        else none).isSome = true →
      SimpleDuplicateChecker.is_duplicate db j = (true, "source_id_match")) ∧
    ((if truthyOpt j.source_id then SimpleDuplicateChecker.check_by_source_id db j
        else none) = none →
      (if !j.original_url.isEmpty then SimpleDuplicateChecker.check_by_url db j
        else none).isSome = true →
      SimpleDuplicateChecker.is_duplicate db j = (true, "url_match")) ∧
    ((if truthyOpt j.source_id then SimpleDuplicateChecker.check_by_source_id db j
        else none) = none →
      (if !j.original_url.isEmpty then SimpleDuplicateChecker.check_by_url db j
        else none) = none →
      (SimpleDuplicateChecker.check_by_content_hash db
        (SimpleDuplicateChecker.generate_content_hash j)).isSome = true →
      SimpleDuplicateChecker.is_duplicate db j = (true, "content_hash_match")) ∧
    ((if truthyOpt j.source_id then SimpleDuplicateChecker.check_by_source_id db j
        else none) = none →
      (if !j.original_url.isEmpty then SimpleDuplicateChecker.check_by_url db j
        else none) = none →
      SimpleDuplicateChecker.check_by_content_hash db
        (SimpleDuplicateChecker.generate_content_hash j) = none →
      ∀ r, SimpleDuplicateChecker.check_by_fuzzy_match db j = some r →
      SimpleDuplicateChecker.is_duplicate db j = (true, "fuzzy_match_score")) ∧
    ((if truthyOpt j.source_id then JobDeduplicationService.check_by_source_id db j
        else none).isSome = true →
      (JobDeduplicationService.check_and_store_job db j marqo newId now).is_new = false) ∧
    ((if truthyOpt j.source_id then JobDeduplicationService.check_by_source_id db j
        else none) = none →
      (JobDeduplicationService.check_by_content_hash db
        (JobDeduplicationService.generate_content_hash j)).isSome = true →
      (JobDeduplicationService.check_and_store_job db j marqo newId now).is_new = false) ∧
    ((if truthyOpt j.source_id then JobDeduplicationService.check_by_source_id db j
        else none) = none →
      JobDeduplicationService.check_by_content_hash db
        (JobDeduplicationService.generate_content_hash j) = none →
      JobDeduplicationService.check_by_fuzzy_match db j = none →
      (JobDeduplicationService.check_and_store_job db j marqo newId now).is_new = true) := by
  refine ⟨?_, ?_, ?_, ?_, ?_, ?_, ?_⟩
  · intro h1
    obtain ⟨x, hx⟩ := Option.isSome_iff_exists.mp h1
    unfold SimpleDuplicateChecker.is_duplicate
    rw [hx]
  · intro h1 h2
    obtain ⟨x, hx⟩ := Option.isSome_iff_exists.mp h2
    unfold SimpleDuplicateChecker.is_duplicate
    rw [h1, hx]
  · intro h1 h2 h3
    obtain ⟨x, hx⟩ := Option.isSome_iff_exists.mp h3
    unfold SimpleDuplicateChecker.is_duplicate
    rw [h1, h2, hx]
  · intro h1 h2 h3 r hr
    have hsc : (0.85 : ℚ) < SimpleDuplicateChecker.calculate_similarity r j := by
      unfold SimpleDuplicateChecker.check_by_fuzzy_match at hr
      have hp := List.find?_some hr
      simp only [decide_eq_true_eq] at hp
      exact hp
    unfold SimpleDuplicateChecker.is_duplicate
    rw [h1, h2, h3, hr]
    simp [hsc]
  · intro h1
    obtain ⟨x, hx⟩ := Option.isSome_iff_exists.mp h1
    unfold JobDeduplicationService.check_and_store_job
    rw [hx]
  · intro h1 h2
    obtain ⟨x, hx⟩ := Option.isSome_iff_exists.mp h2
    unfold JobDeduplicationService.check_and_store_job
    rw [h1, hx]
  · intro h1 h2 h3
    unfold JobDeduplicationService.check_and_store_job
    rw [h1, h2, h3]

/-- Witness for `claim_C1_amended`: the same store/posting as the
counterexample — `SimpleDuplicateChecker` does catch the URL duplicate at
its second tier. -/
theorem claim_C1_amended_witness :
    SimpleDuplicateChecker.is_duplicate dbC1 jobC1 = (true, "url_match") :=
  (claim_C1_amended dbC1 jobC1 none "id" "t").2.1 (by decide) (by decide)

/-! ### Claims C3 and C7: the orchestrator's aggregation -/

theorem resultInsert_not_mem (m : List (String × CrawlSourceResult)) (k : String)
    (v : CrawlSourceResult) (h : m.any (fun p => p.1 = k) = false) :
    resultInsert m k v = m ++ [(k, v)] := by
  unfold resultInsert
  simp [h]

theorem crawlAllFold_results (runs : List (String × SourceRun)) :
    ∀ (totals : Nat × Nat × Nat) (errs : List String)
      (results : List (String × CrawlSourceResult)),
      (runs.map Prod.fst).Nodup →
      (∀ p ∈ runs, results.any (fun q => q.1 = p.1) = false) →
      (crawlAllFold runs totals errs results).2.2 =
        results ++ runs.map (fun p => (p.1, processSource p.1 p.2)) := by
  induction runs with
  | nil => intro totals errs results _ _; simp [crawlAllFold]
  | cons p rest ih =>
      intro totals errs results hnodup hdisj
      rw [List.map_cons] at hnodup
      have hnd := List.nodup_cons.mp hnodup
      show (crawlAllFold rest _ _ (resultInsert results p.1 (processSource p.1 p.2))).2.2 = _
      rw [resultInsert_not_mem _ _ _ (hdisj p (List.mem_cons_self p rest))]
      rw [ih _ _ _ hnd.2]
      · simp
      · intro q hq
        rw [List.any_append]
        have h1 : results.any (fun r => r.1 = q.1) = false :=
          hdisj q (List.mem_cons_of_mem p hq)
        have h2 : ([(p.1, processSource p.1 p.2)].any (fun r => r.1 = q.1)) = false := by
          have : p.1 ≠ q.1 := by
            intro he
            exact hnd.1 (he ▸ List.mem_map_of_mem Prod.fst hq)
          simp [this]
        rw [h1, h2]
        rfl

theorem crawlAllFold_totals (runs : List (String × SourceRun)) :
    ∀ (t a d : Nat) (errs : List String) (results : List (String × CrawlSourceResult)),
      (crawlAllFold runs (t, a, d) errs results).1 =
        (t + (runs.map (fun p => (processSource p.1 p.2).total_crawled)).sum,
         a + (runs.map (fun p => (processSource p.1 p.2).jobs_added)).sum,
         d + (runs.map (fun p => (processSource p.1 p.2).jobs_already_exist)).sum) := by
  induction runs with
  | nil => intro t a d errs results; simp [crawlAllFold]
  | cons p rest ih =>
      intro t a d errs results
      show (crawlAllFold rest
        (t + (processSource p.1 p.2).total_crawled,
         a + (processSource p.1 p.2).jobs_added,
         d + (processSource p.1 p.2).jobs_already_exist) _ _).1 = _
      rw [ih]
      simp only [List.map_cons, List.sum_cons, Prod.mk.injEq]
      omega

/-- C3.  Each source's entry in the per-source breakdown is a function of
that source's own behaviour alone (a failure or unavailability is recorded
as that source's error and leaves every other source's entry untouched),
and each aggregate total is the sum of its per-source counterparts. -/
theorem claim_C3_isolation_and_sums (runs : List (String × SourceRun))
    (hnodup : (runs.map Prod.fst).Nodup) :
    (crawl_all_sources runs).source_results =
      runs.map (fun p => (p.1, processSource p.1 p.2)) ∧
    (crawl_all_sources runs).total_crawled =
      ((crawl_all_sources runs).source_results.map (fun q => q.2.total_crawled)).sum ∧
    (crawl_all_sources runs).total_added =
      ((crawl_all_sources runs).source_results.map (fun q => q.2.jobs_added)).sum ∧
    (crawl_all_sources runs).total_already_exist =
      ((crawl_all_sources runs).source_results.map (fun q => q.2.jobs_already_exist)).sum ∧
    (∀ n, (n, SourceRun.unavailable) ∈ runs →
      (n, processSource n SourceRun.unavailable) ∈ (crawl_all_sources runs).source_results ∧
      (n ++ " is not available") ∈ (processSource n SourceRun.unavailable).errors) := by
  have hres : (crawl_all_sources runs).source_results =
      runs.map (fun p => (p.1, processSource p.1 p.2)) := by
    show (crawlAllFold runs (0, 0, 0) [] []).2.2 = _
    rw [crawlAllFold_results runs (0, 0, 0) [] [] hnodup (by intro p _; rfl)]
    rfl
  have htot := crawlAllFold_totals runs 0 0 0 [] []
  obtain ⟨hc, ha, hd⟩ :
      (crawlAllFold runs (0, 0, 0) [] []).1.1 =
        0 + (runs.map (fun p => (processSource p.1 p.2).total_crawled)).sum ∧
      (crawlAllFold runs (0, 0, 0) [] []).1.2.1 =
        0 + (runs.map (fun p => (processSource p.1 p.2).jobs_added)).sum ∧
      (crawlAllFold runs (0, 0, 0) [] []).1.2.2 =
        0 + (runs.map (fun p => (processSource p.1 p.2).jobs_already_exist)).sum := by
    rw [htot]
    exact ⟨rfl, rfl, rfl⟩
  refine ⟨hres, ?_, ?_, ?_, ?_⟩
  · show (crawlAllFold runs (0, 0, 0) [] []).1.1 = _
    rw [hc, hres, List.map_map, Nat.zero_add]
    rfl
  · show (crawlAllFold runs (0, 0, 0) [] []).1.2.1 = _
    rw [ha, hres, List.map_map, Nat.zero_add]
    rfl
  · show (crawlAllFold runs (0, 0, 0) [] []).1.2.2 = _
    rw [hd, hres, List.map_map, Nat.zero_add]
    rfl
  · intro n hmem
    constructor
    · rw [hres]
      exact List.mem_map_of_mem (fun p => (p.1, processSource p.1 p.2)) hmem
    · show (n ++ " is not available") ∈ [n ++ " is not available"]
      exact List.mem_singleton.mpr rfl

/-- Witness for `claim_C3_isolation_and_sums` on the spec's scenario: four
sources with one unavailable. -/
theorem claim_C3_isolation_and_sums_witness :
    (crawl_all_sources runs4).total_added =
      ((crawl_all_sources runs4).source_results.map (fun q => q.2.jobs_added)).sum ∧
    ("ITViec", processSource "ITViec" SourceRun.unavailable) ∈
      (crawl_all_sources runs4).source_results :=
  ⟨(claim_C3_isolation_and_sums runs4 (by decide)).2.2.1,
    ((claim_C3_isolation_and_sums runs4 (by decide)).2.2.2.2 "ITViec" (by decide)).1⟩

/-- C7 counterexample.  The per-source `success_rate` is a percentage:
for 2 crawled and 1 added the code records `50.0`, not the claimed
`added / crawled = 0.5`. -/
theorem claim_C7_counterexample :
    (crawl_all_sources
      [("TopCV", SourceRun.ok [JobOutcome.added, JobOutcome.duplicate])]).source_results =
      [("TopCV", processSource "TopCV" (SourceRun.ok [JobOutcome.added, JobOutcome.duplicate]))] ∧
    (processSource "TopCV"
      (SourceRun.ok [JobOutcome.added, JobOutcome.duplicate])).success_rate = 50 ∧
    ((processSource "TopCV"
        (SourceRun.ok [JobOutcome.added, JobOutcome.duplicate])).jobs_added : ℚ) /
      ((processSource "TopCV"
        (SourceRun.ok [JobOutcome.added, JobOutcome.duplicate])).total_crawled : ℚ) = 1 / 2 ∧
    (processSource "TopCV"
      (SourceRun.ok [JobOutcome.added, JobOutcome.duplicate])).success_rate ≠
      ((processSource "TopCV"
          (SourceRun.ok [JobOutcome.added, JobOutcome.duplicate])).jobs_added : ℚ) /
        ((processSource "TopCV"
          (SourceRun.ok [JobOutcome.added, JobOutcome.duplicate])).total_crawled : ℚ) := by
  have hca : countAdded [JobOutcome.added, JobOutcome.duplicate] = 1 := by decide
  have h2 : (processSource "TopCV"
      (SourceRun.ok [JobOutcome.added, JobOutcome.duplicate])).success_rate = 50 := by
    show (if 0 < ([JobOutcome.added, JobOutcome.duplicate] : List JobOutcome).length then
      (countAdded [JobOutcome.added, JobOutcome.duplicate] : ℚ) /
        (([JobOutcome.added, JobOutcome.duplicate] : List JobOutcome).length : ℚ) * 100
      else 0) = 50
    rw [hca]
    norm_num
  have h3 : ((processSource "TopCV"
        (SourceRun.ok [JobOutcome.added, JobOutcome.duplicate])).jobs_added : ℚ) /
      ((processSource "TopCV"
        (SourceRun.ok [JobOutcome.added, JobOutcome.duplicate])).total_crawled : ℚ) = 1 / 2 := by
    show (countAdded [JobOutcome.added, JobOutcome.duplicate] : ℚ) /
      (([JobOutcome.added, JobOutcome.duplicate] : List JobOutcome).length : ℚ) = 1 / 2
    rw [hca]
    norm_num
  refine ⟨rfl, h2, h3, ?_⟩
  rw [h2, h3]
  norm_num

/-- C7 (amended).  In the per-source breakdown of `crawl_all_sources`,
each completed source's `success_rate` equals
`added / crawled * 100` when `crawled > 0`. -/
theorem claim_C7_amended (runs : List (String × SourceRun))
    (hnodup : (runs.map Prod.fst).Nodup) (n : String) (jobs : List JobOutcome)
    (hmem : (n, SourceRun.ok jobs) ∈ runs) (hpos : 0 < jobs.length) :
    (n, processSource n (SourceRun.ok jobs)) ∈ (crawl_all_sources runs).source_results ∧
    (processSource n (SourceRun.ok jobs)).success_rate =
      ((processSource n (SourceRun.ok jobs)).jobs_added : ℚ) /
        ((processSource n (SourceRun.ok jobs)).total_crawled : ℚ) * 100 := by
  constructor
  · have hres : (crawl_all_sources runs).source_results =
        runs.map (fun p => (p.1, processSource p.1 p.2)) := by
      show (crawlAllFold runs (0, 0, 0) [] []).2.2 = _
      rw [crawlAllFold_results runs (0, 0, 0) [] [] hnodup (by intro p _; rfl)]
      rfl
    rw [hres]
    exact List.mem_map_of_mem (fun p => (p.1, processSource p.1 p.2)) hmem
  · show (if 0 < jobs.length then
      (countAdded jobs : ℚ) / (jobs.length : ℚ) * 100 else 0) =
      (countAdded jobs : ℚ) / (jobs.length : ℚ) * 100
    rw [if_pos hpos]

/-- Witness for `claim_C7_amended` on the first source of `runs4`. -/
theorem claim_C7_amended_witness :
    (processSource "TopCV"
      (SourceRun.ok [JobOutcome.added, JobOutcome.added, JobOutcome.duplicate])).success_rate =
      ((processSource "TopCV"
          (SourceRun.ok
            [JobOutcome.added, JobOutcome.added, JobOutcome.duplicate])).jobs_added : ℚ) /
        ((processSource "TopCV"
          (SourceRun.ok
            [JobOutcome.added, JobOutcome.added, JobOutcome.duplicate])).total_crawled : ℚ) *
        100 :=
  (claim_C7_amended runs4 (by decide) "TopCV"
    [JobOutcome.added, JobOutcome.added, JobOutcome.duplicate] (by decide) (by decide)).2

/-! ### Claim C5: exhausted fetch strategies -/

/-- C5 counterexample.  When every strategy fails for a URL, `_crawl_page`
returns the empty job list silently; it raises no structured fetch error
(no error path exists in the function — failures are only logged). -/
theorem claim_C5_counterexample :
    crawlSinglePage envAllFail = Except.ok [] ∧
    ∀ e : FetchErrorSpec, crawlSinglePage envAllFail ≠ Except.error e := by
  have h : crawlSinglePage envAllFail = Except.ok [] := by rfl
  refine ⟨h, ?_⟩
  intro e he
  rw [h] at he
  cases he

/-- C5 (amended).  When the navigation hits a 403 challenge page, both
automated bypasses fail, and the subsequent selector flow extracts
nothing, `_crawl_page` returns `[]` without any error — regardless of
whether the human-in-the-loop challenge wait succeeded. -/
theorem claim_C5_amended (env : CrawlPageEnv)
    (h403 : env.responseStatus = some 403)
    (hch : isChallengeDetected env.pageTitle env.pageContent = true)
    (hbypass : bypassOutcome env = none)
    (hnormal : normalFlow env [] = []) :
    crawlSinglePage env = Except.ok [] := by
  unfold crawlSinglePage
  rw [h403]
  simp [hch, hbypass, hnormal]

/-- Witness for `claim_C5_amended` at the all-fail environment. -/
theorem claim_C5_amended_witness :
    crawlSinglePage envAllFail = Except.ok [] :=
  claim_C5_amended envAllFail (by decide) (by decide) (by decide) (by decide)

/-! ### List groundwork for the URL claims -/

theorem takeWhile_of_all {α : Type} {p : α → Bool} {l : List α}
    (h : ∀ c ∈ l, p c = true) : l.takeWhile p = l := by
  induction l with
  | nil => rfl
  | cons c t ih =>
      have hc := h c (by simp)
      simp [List.takeWhile_cons, hc, ih fun x hx => h x (by simp [hx])]

theorem dropWhile_of_all {α : Type} {p : α → Bool} {l : List α}
    (h : ∀ c ∈ l, p c = true) : l.dropWhile p = [] := by
  induction l with
  | nil => rfl
  | cons c t ih =>
      have hc := h c (by simp)
      simp [List.dropWhile_cons, hc, ih fun x hx => h x (by simp [hx])]

theorem takeWhile_append_of_all {α : Type} {p : α → Bool} {l m : List α}
    (h : ∀ c ∈ l, p c = true) :
    (l ++ m).takeWhile p = l ++ m.takeWhile p := by
  induction l with
  | nil => rfl
  | cons c t ih =>
      have hc := h c (by simp)
      simp [List.takeWhile_cons, hc]
      exact ih fun x hx => h x (by simp [hx])

theorem dropWhile_append_of_all {α : Type} {p : α → Bool} {l m : List α}
    (h : ∀ c ∈ l, p c = true) :
    (l ++ m).dropWhile p = m.dropWhile p := by
  induction l with
  | nil => rfl
  | cons c t ih =>
      have hc := h c (by simp)
      simp [List.dropWhile_cons, hc]
      exact ih fun x hx => h x (by simp [hx])

theorem takeWhile_cons_of_neg {α : Type} {p : α → Bool} {c : α} (l : List α)
    (h : p c = false) : (c :: l).takeWhile p = [] := by
  simp [List.takeWhile_cons, h]

theorem dropWhile_cons_of_neg {α : Type} {p : α → Bool} {c : α} (l : List α)
    (h : p c = false) : (c :: l).dropWhile p = c :: l := by
  simp [List.dropWhile_cons, h]

theorem mem_of_mem_takeWhile {α : Type} {p : α → Bool} {l : List α} {c : α}
    (h : c ∈ l.takeWhile p) : c ∈ l := by
  induction l with
  | nil => simp at h
  | cons a t ih =>
      rw [List.takeWhile_cons] at h
      by_cases ha : p a = true
      · rw [if_pos ha] at h
        rcases List.mem_cons.mp h with h | h
        · simp [h]
        · exact List.mem_cons_of_mem a (ih h)
      · rw [if_neg ha] at h
        simp at h

theorem pred_of_mem_takeWhile {α : Type} {p : α → Bool} {l : List α} {c : α}
    (h : c ∈ l.takeWhile p) : p c = true := by
  induction l with
  | nil => simp at h
  | cons a t ih =>
      rw [List.takeWhile_cons] at h
      by_cases ha : p a = true
      · rw [if_pos ha] at h
        rcases List.mem_cons.mp h with h | h
        · rwa [h]
        · exact ih h
      · rw [if_neg ha] at h
        simp at h

theorem mem_of_mem_dropWhile {α : Type} {p : α → Bool} {l : List α} {c : α}
    (h : c ∈ l.dropWhile p) : c ∈ l := by
  induction l with
  | nil => simp at h
  | cons a t ih =>
      rw [List.dropWhile_cons] at h
      by_cases ha : p a = true
      · rw [if_pos ha] at h
        exact List.mem_cons_of_mem a (ih h)
      · rw [if_neg ha] at h
        exact h

theorem dropWhile_head_neg {α : Type} {p : α → Bool} {l : List α} {c : α} {t : List α}
    (h : l.dropWhile p = c :: t) : p c = false := by
  induction l with
  | nil => simp at h
  | cons a r ih =>
      rw [List.dropWhile_cons] at h
      by_cases ha : p a = true
      · rw [if_pos ha] at h
        exact ih h
      · rw [if_neg ha] at h
        cases h
        simpa using ha

theorem takeWhile_head?_some {α : Type} {p : α → Bool} {l : List α} {c : α}
    (h : (l.takeWhile p).head? = some c) : l.head? = some c := by
  cases l with
  | nil => simp at h
  | cons a t =>
      rw [List.takeWhile_cons] at h
      by_cases ha : p a = true
      · rw [if_pos ha] at h
        simpa using h
      · rw [if_neg ha] at h
        simp at h

theorem head?_append_left {α : Type} {l : List α} (m : List α) (h : l ≠ []) :
    (l ++ m).head? = l.head? := by
  cases l with
  | nil => exact absurd rfl h
  | cons a t => rfl

theorem take_append_cons {α : Type} (a : List α) (c : α) (b : List α) :
    (a ++ c :: b).take (a.length + 1) = a ++ [c] := by
  induction a with
  | nil => rfl
  | cons x t ih => simpa [List.take, Nat.succ_eq_add_one] using ih

/-! ### `pySplit1` and character facts -/

theorem pySplit1_decomp {ch : Char} {x : List Char} (h : ch ∈ x) :
    x = (pySplit1 ch x).1 ++ ch :: (pySplit1 ch x).2 := by
  unfold pySplit1
  have hsplit := List.takeWhile_append_dropWhile (p := fun c => c != ch) (l := x)
  cases hd : x.dropWhile (fun c => c != ch) with
  | nil =>
      exfalso
      rw [hd, List.append_nil] at hsplit
      have := pred_of_mem_takeWhile (p := fun c => c != ch) (hsplit ▸ h)
      simp at this
  | cons c t =>
      have hc : (c != ch) = false := dropWhile_head_neg (p := fun c => c != ch) hd
      have hc' : c = ch := by simpa using hc
      rw [hc'] at hd
      have hx : x = x.takeWhile (fun c => c != ch) ++ ch :: t := by
        conv_lhs => rw [← hsplit]
        rw [hd]
      simpa using hx

theorem pySplit1_fst_not_mem {ch : Char} {x : List Char} :
    ch ∉ (pySplit1 ch x).1 := by
  intro h
  have := pred_of_mem_takeWhile (p := fun c => c != ch) h
  simp at this

theorem pySplit1_fst_subset {ch : Char} {x : List Char} :
    ∀ c ∈ (pySplit1 ch x).1, c ∈ x := fun _ hc => mem_of_mem_takeWhile hc

theorem pySplit1_snd_subset {ch : Char} {x : List Char} :
    ∀ c ∈ (pySplit1 ch x).2, c ∈ x := by
  intro c hc
  exact mem_of_mem_dropWhile (List.drop_subset 1 _ hc)

/-- The needed facts about lowering a scheme character. -/
theorem scheme_char_facts : ∀ c ∈ scheme_chars,
    isSchemeChar (Char.toLower c) = true ∧ Char.toLower c ≠ ':' ∧
    Char.toLower (Char.toLower c) = Char.toLower c ∧
    (c.isAlpha = true → (Char.toLower c).isAlpha = true) ∧
    isC0OrSpace (Char.toLower c) = false ∧
    isUnsafeUrlByte (Char.toLower c) = false := by decide

theorem isSchemeChar_mem {c : Char} (h : isSchemeChar c = true) :
    c ∈ scheme_chars := by
  simpa [isSchemeChar, List.contains_iff_exists_mem_beq, beq_iff_eq] using h

/-! ### `splitScheme` -/

/-- Soundness of the scheme extraction: an accepted split decomposes the
input and records the accept conditions. -/
theorem splitScheme_eq_some {x s r : List Char}
    (h : splitScheme x = some (s, r)) :
    ∃ c₀ cs, x = (c₀ :: cs) ++ ':' :: r ∧
      (∀ c ∈ c₀ :: cs, isSchemeChar c = true) ∧ c₀.isAlpha = true ∧
      s = (c₀ :: cs).map Char.toLower := by
  unfold splitScheme at h
  by_cases hlen : (x.takeWhile (fun c => c != ':')).length = x.length
  · rw [if_pos hlen] at h
    exact absurd h (by simp)
  · rw [if_neg hlen] at h
    cases hpre : x.takeWhile (fun c => c != ':') with
    | nil => rw [hpre] at h; exact absurd h (by simp)
    | cons c₀ cs =>
        rw [hpre] at h
        have h2 : (if (c₀.isAlpha && (c₀ :: cs).all isSchemeChar) = true then
            some ((c₀ :: cs).map Char.toLower, x.drop ((c₀ :: cs).length + 1))
          else none) = some (s, r) := h
        by_cases hcond : (c₀.isAlpha && (c₀ :: cs).all isSchemeChar) = true
        · rw [if_pos hcond] at h2
          have hcond2 : c₀.isAlpha = true ∧ ∀ c ∈ c₀ :: cs, isSchemeChar c = true := by
            simpa using hcond
          obtain ⟨hα, hall⟩ := hcond2
          injection h2 with h3
          injection h3 with hs hr
          have hsplit := List.takeWhile_append_dropWhile (p := fun c => c != ':') (l := x)
          cases hd : x.dropWhile (fun c => c != ':') with
          | nil =>
              exfalso
              apply hlen
              rw [hd, List.append_nil] at hsplit
              rw [hsplit]
          | cons d ds =>
              have hdc : (d != ':') = false :=
                dropWhile_head_neg (p := fun c => c != ':') hd
              have hdc' : d = ':' := by simpa using hdc
              subst hdc'
              have hx : x = (c₀ :: cs) ++ ':' :: ds := by
                rw [← hsplit, hpre, hd]
              have hr' : r = ds := by
                rw [← hr, hx]
                have he : ((c₀ :: cs) ++ ':' :: ds) = ((c₀ :: cs) ++ [':']) ++ ds := by
                  simp
                rw [he]
                have hlen2 : ((c₀ :: cs) ++ [':']).length = (c₀ :: cs).length + 1 := by
                  simp
                rw [← hlen2, List.drop_left]
              refine ⟨c₀, cs, ?_, ?_, hα, hs.symm⟩
              · rw [hx, hr']
              · exact hall
        · rw [if_neg hcond] at h2
          exact absurd h2 (by simp)

/-- Re-parsing a lowered scheme: `splitScheme` accepts again and returns the
same (already lowered) scheme. -/
theorem splitScheme_roundtrip {c₀ : Char} {cs r' : List Char}
    (hall : ∀ c ∈ c₀ :: cs, isSchemeChar c = true) (hα : c₀.isAlpha = true) :
    splitScheme ((c₀ :: cs).map Char.toLower ++ ':' :: r') =
      some ((c₀ :: cs).map Char.toLower, r') := by
  have hfacts : ∀ c ∈ c₀ :: cs,
      isSchemeChar (Char.toLower c) = true ∧ Char.toLower c ≠ ':' ∧
      Char.toLower (Char.toLower c) = Char.toLower c ∧
      (c.isAlpha = true → (Char.toLower c).isAlpha = true) ∧
      isC0OrSpace (Char.toLower c) = false ∧
      isUnsafeUrlByte (Char.toLower c) = false :=
    fun c hc => scheme_char_facts c (isSchemeChar_mem (hall c hc))
  have hne : ∀ c ∈ (c₀ :: cs).map Char.toLower, (c != ':') = true := by
    intro c hc
    rcases List.mem_map.mp hc with ⟨c', hc', rfl⟩
    simpa using (hfacts c' hc').2.1
  have hpre : ((c₀ :: cs).map Char.toLower ++ ':' :: r').takeWhile
      (fun c => c != ':') = (c₀ :: cs).map Char.toLower := by
    rw [takeWhile_append_of_all hne, takeWhile_cons_of_neg _ (by simp),
      List.append_nil]
  unfold splitScheme
  rw [hpre]
  have hlen : ((c₀ :: cs).map Char.toLower).length ≠
      ((c₀ :: cs).map Char.toLower ++ ':' :: r').length := by
    rw [List.length_append]
    simp
  rw [if_neg hlen]
  have hmap : (c₀ :: cs).map Char.toLower = Char.toLower c₀ :: cs.map Char.toLower := by
    simp
  have hcond : ((Char.toLower c₀).isAlpha &&
      ((c₀ :: cs).map Char.toLower).all isSchemeChar) = true := by
    rw [Bool.and_eq_true]
    constructor
    · exact (hfacts c₀ (by simp)).2.2.2.1 hα
    · rw [List.all_eq_true]
      intro c hc
      rcases List.mem_map.mp hc with ⟨c', hc', rfl⟩
      exact (hfacts c' hc').1
  have h2 : (match (c₀ :: cs).map Char.toLower with
      | [] => none
      | c :: _ =>
        if (c.isAlpha && ((c₀ :: cs).map Char.toLower).all isSchemeChar) = true then
          some (((c₀ :: cs).map Char.toLower).map Char.toLower,
            ((c₀ :: cs).map Char.toLower ++ ':' :: r').drop
              (((c₀ :: cs).map Char.toLower).length + 1))
        else none) =
      some (((c₀ :: cs).map Char.toLower).map Char.toLower,
        ((c₀ :: cs).map Char.toLower ++ ':' :: r').drop
          (((c₀ :: cs).map Char.toLower).length + 1)) := by
    rw [hmap]
    rw [hmap] at hcond
    simpa using hcond
  rw [h2]
  have hlower : ((c₀ :: cs).map Char.toLower).map Char.toLower =
      (c₀ :: cs).map Char.toLower := by
    rw [List.map_map]
    exact List.map_congr_left fun c hc => (hfacts c hc).2.2.1
  have hdrop : ((c₀ :: cs).map Char.toLower ++ ':' :: r').drop
      (((c₀ :: cs).map Char.toLower).length + 1) = r' := by
    have he : (c₀ :: cs).map Char.toLower ++ ':' :: r' =
        ((c₀ :: cs).map Char.toLower ++ [':']) ++ r' := by simp
    have hlen2 : ((c₀ :: cs).map Char.toLower ++ [':']).length =
        ((c₀ :: cs).map Char.toLower).length + 1 := by simp
    rw [he, ← hlen2, List.drop_left]
  rw [hlower, hdrop]

/-- A url starting with `/` never yields a scheme. -/
theorem splitScheme_slash (r : List Char) : splitScheme ('/' :: r) = none := by
  unfold splitScheme
  have hpre : ('/' :: r).takeWhile (fun c => c != ':') =
      '/' :: r.takeWhile (fun c => c != ':') := by
    simp [List.takeWhile_cons]
  rw [hpre]
  by_cases hlen : ('/' :: r.takeWhile (fun c => c != ':')).length = ('/' :: r).length
  · rw [if_pos hlen]
  · rw [if_neg hlen]
    simp

/-! ### `afterLastSlash` and `splitparams` -/

theorem afterLastSlash_not_mem (l : List Char) : '/' ∉ afterLastSlash l := by
  intro h
  have h' := List.mem_reverse.mp h
  have := pred_of_mem_takeWhile (p := fun c => c != '/') h'
  simp at this

theorem afterLastSlash_of_not_mem {l : List Char} (h : '/' ∉ l) :
    afterLastSlash l = l := by
  unfold afterLastSlash
  rw [takeWhile_of_all, List.reverse_reverse]
  intro c hc
  have : c ∈ l := List.mem_reverse.mp hc
  simp only [bne_iff_ne, ne_eq]
  exact fun he => h (he ▸ this)

/-- Decomposition at the last slash. -/
theorem afterLastSlash_decomp {l : List Char} (h : '/' ∈ l) :
    ∃ st, l = st ++ '/' :: afterLastSlash l := by
  have h' : '/' ∈ l.reverse := List.mem_reverse.mpr h
  have hd := pySplit1_decomp h'
  refine ⟨((l.reverse.dropWhile (fun c => c != '/')).drop 1).reverse, ?_⟩
  conv_lhs => rw [← List.reverse_reverse l, hd]
  unfold pySplit1 afterLastSlash
  simp

/-- Computing `afterLastSlash` on `st ++ '/' :: r` with a slash-free tail. -/
theorem afterLastSlash_append (st : List Char) {r : List Char} (h : '/' ∉ r) :
    afterLastSlash (st ++ '/' :: r) = r := by
  unfold afterLastSlash
  rw [List.reverse_append, List.reverse_cons, List.append_assoc]
  have hall : ∀ c ∈ r.reverse, (c != '/') = true := by
    intro c hc
    have : c ∈ r := List.mem_reverse.mp hc
    simp only [bne_iff_ne, ne_eq]
    exact fun he => h (he ▸ this)
  rw [takeWhile_append_of_all hall, List.singleton_append,
    takeWhile_cons_of_neg _ (by simp), List.append_nil, List.reverse_reverse]

theorem mem_of_afterLastSlash {l : List Char} {c : Char}
    (h : c ∈ afterLastSlash l) : c ∈ l := by
  unfold afterLastSlash at h
  exact List.mem_reverse.mp (mem_of_mem_takeWhile (List.mem_reverse.mp h))

theorem head?_append_cons_eq (st : List Char) (c : Char) (u v : List Char) :
    (st ++ c :: u).head? = (st ++ c :: v).head? := by
  cases st <;> rfl

theorem rejoinSplit_no_semi {x : List Char} (h : ';' ∉ x) : rejoinSplit x = x := by
  unfold rejoinSplit splitparams
  by_cases hsl : '/' ∈ x
  · rw [if_pos hsl]
    have hst : ';' ∉ afterLastSlash x := fun hc => h (mem_of_afterLastSlash hc)
    rw [if_neg hst]
    unfold rejoinParams
    simp
  · rw [if_neg hsl]
    have h1 : x.takeWhile (fun c => c != ';') = x := by
      apply takeWhile_of_all
      intro c hc
      simp only [bne_iff_ne, ne_eq]
      exact fun he => h (he ▸ hc)
    have h2 : x.dropWhile (fun c => c != ';') = [] := by
      apply dropWhile_of_all
      intro c hc
      simp only [bne_iff_ne, ne_eq]
      exact fun he => h (he ▸ hc)
    unfold pySplit1 rejoinParams
    rw [h1, h2]
    simp
/-- The path/params split rejoined is either the path itself, or the path
with the split semicolon (its last character) removed. -/
theorem rejoinSplit_spec (x : List Char) :
    rejoinSplit x = x ∨
    (∃ st b, rejoinSplit x = st ++ '/' :: b ∧ x = st ++ '/' :: (b ++ [';']) ∧
      '/' ∉ b ∧ ';' ∉ b) ∨
    (∃ b, rejoinSplit x = b ∧ x = b ++ [';'] ∧ ';' ∉ b) := by
  by_cases hsemi : ';' ∈ x
  · by_cases hsl : '/' ∈ x
    · by_cases hst : ';' ∈ afterLastSlash x
      · obtain ⟨st, hdec⟩ := afterLastSlash_decomp hsl
        have htb := pySplit1_decomp hst
        have hlenx := congrArg List.length hdec
        simp only [List.length_append, List.length_cons] at hlenx
        have hlen : x.length - (afterLastSlash x).length = st.length + 1 := by
          omega
        have hstem : x.take (x.length - (afterLastSlash x).length) = st ++ ['/'] := by
          rw [hlen]
          conv_lhs => rw [hdec]
          exact take_append_cons st '/' (afterLastSlash x)
        have hsp : splitparams x = (st ++ ['/'] ++ (pySplit1 ';' (afterLastSlash x)).1,
            (pySplit1 ';' (afterLastSlash x)).2) := by
          unfold splitparams
          rw [if_pos hsl, if_pos hst, hstem]
        by_cases hd : (pySplit1 ';' (afterLastSlash x)).2 = []
        · right; left
          refine ⟨st, (pySplit1 ';' (afterLastSlash x)).1, ?_, ?_, ?_, ?_⟩
          · unfold rejoinSplit
            rw [hsp]
            unfold rejoinParams
            rw [if_pos hd]
            simp
          · conv_lhs => rw [hdec, htb, hd]
          · intro hc
            exact afterLastSlash_not_mem x (htb ▸ List.mem_append_left _ hc)
          · exact pySplit1_fst_not_mem
        · left
          unfold rejoinSplit
          rw [hsp]
          unfold rejoinParams
          rw [if_neg hd]
          conv_rhs => rw [hdec, htb]
          simp
      · left
        unfold rejoinSplit splitparams
        rw [if_pos hsl, if_neg hst]
        unfold rejoinParams
        simp
    · have hxb := pySplit1_decomp hsemi
      by_cases hd : (pySplit1 ';' x).2 = []
      · right; right
        refine ⟨(pySplit1 ';' x).1, ?_, ?_, pySplit1_fst_not_mem⟩
        · unfold rejoinSplit splitparams
          rw [if_neg hsl]
          unfold rejoinParams
          rw [if_pos hd]
        · conv_lhs => rw [hxb, hd]
      · left
        unfold rejoinSplit splitparams
        rw [if_neg hsl]
        unfold rejoinParams
        rw [if_neg hd]
        exact hxb.symm
  · left
    exact rejoinSplit_no_semi hsemi

theorem rejoinSplit_subset {x : List Char} : ∀ c ∈ rejoinSplit x, c ∈ x := by
  intro c hc
  rcases rejoinSplit_spec x with h | ⟨st, b, hy, hx, _, _⟩ | ⟨b, hy, hx, _⟩
  · exact h ▸ hc
  · rw [hy] at hc
    rw [hx]
    rcases List.mem_append.mp hc with h1 | h1
    · exact List.mem_append_left _ h1
    · rcases List.mem_cons.mp h1 with h2 | h2
      · exact List.mem_append_right _ (List.mem_cons.mpr (Or.inl h2))
      · exact List.mem_append_right _
          (List.mem_cons.mpr (Or.inr (List.mem_append_left _ h2)))
  · rw [hy] at hc
    rw [hx]
    exact List.mem_append_left _ hc

theorem rejoinSplit_head? (x : List Char) :
    rejoinSplit x = [] ∨ (rejoinSplit x).head? = x.head? := by
  rcases rejoinSplit_spec x with h | ⟨st, b, hy, hx, _, _⟩ | ⟨b, hy, hx, _⟩
  · right; rw [h]
  · right
    rw [hy, hx]
    exact head?_append_cons_eq st '/' b (b ++ [';'])
  · cases hb : b with
    | nil => left; rw [hy, hb]
    | cons c t =>
        right
        rw [hy, hx, hb]
        rfl

theorem rejoinSplit_idem (x : List Char) :
    rejoinSplit (rejoinSplit x) = rejoinSplit x := by
  rcases rejoinSplit_spec x with h | ⟨st, b, hy, hx, hsb, hnb⟩ | ⟨b, hy, hx, hnb⟩
  · rw [h]
    rcases rejoinSplit_spec x with h2 | ⟨st, b, hy, hx, hsb, hnb⟩ | ⟨b, hy, hx, hnb⟩
    · exact h2
    · exfalso
      rw [h] at hy
      have hcontra := congrArg List.length (hy.symm.trans hx)
      simp only [List.length_append, List.length_cons] at hcontra
      omega
    · exfalso
      rw [h] at hy
      have hcontra := congrArg List.length (hy.symm.trans hx)
      simp only [List.length_append, List.length_cons] at hcontra
      omega
  · rw [hy]
    unfold rejoinSplit splitparams
    have hsl : '/' ∈ st ++ '/' :: b := List.mem_append_right _ (by simp)
    rw [if_pos hsl]
    have hals : afterLastSlash (st ++ '/' :: b) = b := afterLastSlash_append st hsb
    rw [hals, if_neg hnb]
    unfold rejoinParams
    simp
  · rw [hy]
    exact rejoinSplit_no_semi hnb

/-! ### The params stage and the reassembly helpers -/

theorem rejoinParams_paramsSplitOf (s x : List Char) :
    rejoinParams (paramsSplitOf s x).1 (paramsSplitOf s x).2 =
      if s ∈ uses_params ∧ ';' ∈ x then rejoinSplit x else x := by
  unfold paramsSplitOf
  by_cases h : s ∈ uses_params ∧ ';' ∈ x
  · rw [if_pos h, if_pos h]
    rfl
  · rw [if_neg h, if_neg h]
    unfold rejoinParams
    simp

theorem params_stage_stable (s x : List Char) :
    rejoinParams
      (paramsSplitOf s (rejoinParams (paramsSplitOf s x).1 (paramsSplitOf s x).2)).1
      (paramsSplitOf s (rejoinParams (paramsSplitOf s x).1 (paramsSplitOf s x).2)).2 =
    rejoinParams (paramsSplitOf s x).1 (paramsSplitOf s x).2 := by
  have hy := rejoinParams_paramsSplitOf s x
  rw [rejoinParams_paramsSplitOf]
  by_cases h : s ∈ uses_params ∧ ';' ∈ x
  · rw [if_pos h] at hy
    rw [hy]
    by_cases hc : s ∈ uses_params ∧ ';' ∈ rejoinSplit x
    · rw [if_pos hc]
      exact rejoinSplit_idem x
    · rw [if_neg hc]
  · rw [if_neg h] at hy
    rw [hy, if_neg h]

theorem mem_of_head? {α : Type} {l : List α} {c : α} (h : l.head? = some c) :
    c ∈ l := by
  cases l with
  | nil => simp at h
  | cons a t =>
      have : a = c := by simpa using h
      simp [this]

theorem netlocSplitOf_reassemble {n p2 : List Char}
    (hn : ∀ c ∈ n, (!isNetlocDelim c) = true)
    (hp : p2 = [] ∨ p2.head? = some '/') :
    netlocSplitOf ('/' :: '/' :: (n ++ p2)) = (n, p2) := by
  unfold netlocSplitOf
  have ht : List.take 2 ('/' :: '/' :: (n ++ p2)) = ['/', '/'] := rfl
  rw [if_pos ht]
  unfold splitNetloc2
  have hdrop : (('/' :: '/' :: (n ++ p2)).drop 2) = n ++ p2 := rfl
  rw [hdrop, takeWhile_append_of_all hn, dropWhile_append_of_all hn]
  rcases hp with hp | hp
  · subst hp
    simp
  · cases p2 with
    | nil => simp at hp
    | cons c t =>
        have hc : c = '/' := by simpa using hp
        subst hc
        rw [takeWhile_cons_of_neg _ (by decide), dropWhile_cons_of_neg _ (by decide)]
        simp

theorem fragSplitOf_not_mem {x : List Char} (h : '#' ∉ x) :
    fragSplitOf x = (x, []) := by
  unfold fragSplitOf
  rw [if_neg h]

theorem querySplitOf_not_mem {x : List Char} (h : '?' ∉ x) :
    querySplitOf x = (x, []) := by
  unfold querySplitOf
  rw [if_neg h]

theorem fragSplitOf_fst_subset {x : List Char} :
    ∀ c ∈ (fragSplitOf x).1, c ∈ x := by
  unfold fragSplitOf
  by_cases h : '#' ∈ x
  · rw [if_pos h]
    exact pySplit1_fst_subset
  · rw [if_neg h]
    exact fun _ hc => hc

theorem fragSplitOf_fst_not_mem {x : List Char} : '#' ∉ (fragSplitOf x).1 := by
  unfold fragSplitOf
  by_cases h : '#' ∈ x
  · rw [if_pos h]
    exact pySplit1_fst_not_mem
  · rw [if_neg h]
    exact h

theorem querySplitOf_fst_subset {x : List Char} :
    ∀ c ∈ (querySplitOf x).1, c ∈ x := by
  unfold querySplitOf
  by_cases h : '?' ∈ x
  · rw [if_pos h]
    exact pySplit1_fst_subset
  · rw [if_neg h]
    exact fun _ hc => hc

theorem querySplitOf_fst_not_mem {x : List Char} : '?' ∉ (querySplitOf x).1 := by
  unfold querySplitOf
  by_cases h : '?' ∈ x
  · rw [if_pos h]
    exact pySplit1_fst_not_mem
  · rw [if_neg h]
    exact h

theorem fragSplitOf_fst_head? {x : List Char} {c : Char}
    (h : (fragSplitOf x).1.head? = some c) : x.head? = some c := by
  unfold fragSplitOf at h
  by_cases hx : '#' ∈ x
  · rw [if_pos hx] at h
    exact takeWhile_head?_some h
  · rw [if_neg hx] at h
    exact h

theorem querySplitOf_fst_head? {x : List Char} {c : Char}
    (h : (querySplitOf x).1.head? = some c) : x.head? = some c := by
  unfold querySplitOf at h
  by_cases hx : '?' ∈ x
  · rw [if_pos hx] at h
    exact takeWhile_head?_some h
  · rw [if_neg hx] at h
    exact h

theorem urlPre_safeBytes (l : List Char) :
    ∀ c ∈ urlPre l, isUnsafeUrlByte c = false := by
  intro c hc
  unfold urlPre dropUnsafeBytes at hc
  have := List.mem_filter.mp hc
  simpa using this.2

theorem dropUnsafeBytes_of_clean {l : List Char}
    (h : ∀ c ∈ l, isUnsafeUrlByte c = false) : dropUnsafeBytes l = l := by
  unfold dropUnsafeBytes
  apply List.filter_eq_self.mpr
  intro c hc
  simp [h c hc]

theorem lstripC0_of_head {l : List Char}
    (h : ∀ c, l.head? = some c → isC0OrSpace c = false) : lstripC0 l = l := by
  unfold lstripC0
  cases l with
  | nil => rfl
  | cons c t => exact dropWhile_cons_of_neg _ (h c rfl)

theorem addFragment_nil (u : List Char) : addFragment [] u = u := by
  unfold addFragment
  simp

theorem addQuery_nil (u : List Char) : addQuery [] u = u := by
  unfold addQuery
  simp

/-- Re-splitting a reassembled `scheme://netloc + path` string recovers its
components. -/
theorem pyUrlsplit_built {s n p2 : List Char}
    (hpre : urlPre (addScheme s ('/' :: '/' :: (n ++ p2))) =
      addScheme s ('/' :: '/' :: (n ++ p2)))
    (hsch : schemeSplitOf (addScheme s ('/' :: '/' :: (n ++ p2))) =
      (s, '/' :: '/' :: (n ++ p2)))
    (hn : ∀ c ∈ n, (!isNetlocDelim c) = true)
    (hp : p2 = [] ∨ p2.head? = some '/')
    (hfr : '#' ∉ p2) (hq : '?' ∉ p2) :
    pyUrlsplit (addScheme s ('/' :: '/' :: (n ++ p2))) =
      ⟨s, n, p2, [], []⟩ := by
  unfold pyUrlsplit
  rw [hpre, hsch]
  simp only [netlocSplitOf_reassemble hn hp, fragSplitOf_not_mem hfr,
    querySplitOf_not_mem hq]

/-- Expanding `cleanCore` into the unsplit stages. -/
theorem cleanCore_expand (x : List Char) :
    cleanCore x = addScheme (pyUrlsplit x).scheme
      (netlocAssemble (pyUrlsplit x).scheme (pyUrlsplit x).netloc
        (rejoinParams
          (paramsSplitOf (pyUrlsplit x).scheme (pyUrlsplit x).path).1
          (paramsSplitOf (pyUrlsplit x).scheme (pyUrlsplit x).path).2)) := by
  unfold cleanCore pyUrlparse pyUrlunparse pyUrlunsplit
  rw [addFragment_nil, addQuery_nil]

/-- `cleanCore` is the identity on a reassembled string with a nonempty
netloc whose path part is params-stable. -/
theorem cleanCore_built {s n p2 : List Char} (hnne : n ≠ [])
    (hps : rejoinParams (paramsSplitOf s p2).1 (paramsSplitOf s p2).2 = p2)
    (hsp : pyUrlsplit (addScheme s ('/' :: '/' :: (n ++ p2))) =
      ⟨s, n, p2, [], []⟩)
    (hp : p2 = [] ∨ p2.head? = some '/') :
    cleanCore (addScheme s ('/' :: '/' :: (n ++ p2))) =
      addScheme s ('/' :: '/' :: (n ++ p2)) := by
  rw [cleanCore_expand, hsp]
  simp only []
  rw [hps]
  unfold netlocAssemble
  rw [if_pos (Or.inl hnne)]
  have hsl : slashPrep p2 = p2 := by
    unfold slashPrep
    rcases hp with hp | hp
    · subst hp
      simp
    · cases p2 with
      | nil => simp at hp
      | cons c t =>
          have hc : c = '/' := by simpa using hp
          subst hc
          rw [if_neg (by simp)]
  rw [hsl]

theorem pyUrlsplit_stages {x s u1 : List Char}
    (hsch1 : schemeSplitOf (urlPre x) = (s, u1)) :
    pyUrlsplit x = ⟨s, (netlocSplitOf u1).1,
      (querySplitOf (fragSplitOf (netlocSplitOf u1).2).1).1,
      (querySplitOf (fragSplitOf (netlocSplitOf u1).2).1).2,
      (fragSplitOf (netlocSplitOf u1).2).2⟩ := by
  unfold pyUrlsplit
  rw [hsch1]

/-- The scheme-independent part of the fixed-point argument. -/
theorem cleanCore_fix_aux {x s u1 : List Char}
    (hsch1 : schemeSplitOf (urlPre x) = (s, u1))
    (hu1sub : ∀ c ∈ u1, c ∈ urlPre x)
    (hre : ∀ w : List Char, w.head? = some '/' →
      schemeSplitOf (addScheme s w) = (s, w))
    (hsC0 : ∀ c, s.head? = some c → isC0OrSpace c = false)
    (hsBytes : ∀ c ∈ s, isUnsafeUrlByte c = false)
    (hn : (pyUrlsplit x).netloc ≠ []) :
    cleanCore (cleanCore x) = cleanCore x ∧ cleanCore x ≠ [] := by
  by_cases htake : u1.take 2 = ['/', '/']
  · have hnl : netlocSplitOf u1 =
        ((u1.drop 2).takeWhile (fun c => !isNetlocDelim c),
         (u1.drop 2).dropWhile (fun c => !isNetlocDelim c)) := by
      unfold netlocSplitOf splitNetloc2
      rw [if_pos htake]
    set n := (u1.drop 2).takeWhile (fun c => !isNetlocDelim c) with hn_def
    set u2 := (u1.drop 2).dropWhile (fun c => !isNetlocDelim c) with hu2_def
    have hx_split : pyUrlsplit x = ⟨s, n,
        (querySplitOf (fragSplitOf u2).1).1,
        (querySplitOf (fragSplitOf u2).1).2,
        (fragSplitOf u2).2⟩ := by
      rw [pyUrlsplit_stages hsch1, hnl]
    set path₀ := (querySplitOf (fragSplitOf u2).1).1 with hpath_def
    have hnne : n ≠ [] := by
      intro h
      apply hn
      rw [hx_split]
      exact h
    have hn_all : ∀ c ∈ n, (!isNetlocDelim c) = true := by
      intro c hc
      rw [hn_def] at hc
      exact pred_of_mem_takeWhile (p := fun c => !isNetlocDelim c) hc
    have hu2head : ∀ c, u2.head? = some c → isNetlocDelim c = true := by
      intro c hc
      cases hu2 : u2 with
      | nil => rw [hu2] at hc; simp at hc
      | cons d t =>
          rw [hu2] at hc
          have hdc : d = c := by simpa using hc
          have hneg := dropWhile_head_neg (p := fun c => !isNetlocDelim c)
            (hu2_def ▸ hu2)
          rw [hdc] at hneg
          simpa using hneg
    have hpath_sub : ∀ c ∈ path₀, c ∈ u2 :=
      fun _ hc => fragSplitOf_fst_subset _ (querySplitOf_fst_subset _ hc)
    have hpath_nf : '#' ∉ path₀ :=
      fun hc => fragSplitOf_fst_not_mem (querySplitOf_fst_subset _ hc)
    have hpath_nq : '?' ∉ path₀ := querySplitOf_fst_not_mem
    have hpath_head : ∀ c, path₀.head? = some c → c = '/' := by
      intro c hc
      have h1 := querySplitOf_fst_head? hc
      have h2 := fragSplitOf_fst_head? h1
      have hdelim := hu2head c h2
      have hcmem : c ∈ path₀ := mem_of_head? hc
      have hne1 : c ≠ '#' := fun he => hpath_nf (he ▸ hcmem)
      have hne2 : c ≠ '?' := fun he => hpath_nq (he ▸ hcmem)
      unfold isNetlocDelim at hdelim
      simp only [Bool.or_eq_true, decide_eq_true_eq] at hdelim
      rcases hdelim with (h | h) | h
      · exact h
      · exact absurd h hne2
      · exact absurd h hne1
    set p2 := rejoinParams (paramsSplitOf s path₀).1 (paramsSplitOf s path₀).2
      with hp2_def
    have hp2cases := rejoinParams_paramsSplitOf s path₀
    rw [← hp2_def] at hp2cases
    have hp2head : p2 = [] ∨ p2.head? = some '/' := by
      by_cases hcnd : s ∈ uses_params ∧ ';' ∈ path₀
      · rw [if_pos hcnd] at hp2cases
        rcases rejoinSplit_head? path₀ with h | h
        · left
          rw [hp2cases]
          exact h
        · cases hpx : path₀ with
          | nil =>
              left
              rw [hp2cases, hpx]
              exact rejoinSplit_no_semi (by simp)
          | cons c t =>
              right
              have hc := hpath_head c (by rw [hpx]; rfl)
              rw [hp2cases, h, hpx, hc]
              rfl
      · rw [if_neg hcnd] at hp2cases
        cases hpx : path₀ with
        | nil =>
            left
            rw [hp2cases, hpx]
        | cons c t =>
            right
            have hc := hpath_head c (by rw [hpx]; rfl)
            rw [hp2cases, hpx, hc]
            rfl
    have hp2sub : ∀ c ∈ p2, c ∈ path₀ := by
      intro c hc
      by_cases hcnd : s ∈ uses_params ∧ ';' ∈ path₀
      · rw [if_pos hcnd] at hp2cases
        rw [hp2cases] at hc
        exact rejoinSplit_subset c hc
      · rw [if_neg hcnd] at hp2cases
        rw [hp2cases] at hc
        exact hc
    have hp2_nf : '#' ∉ p2 := fun hc => hpath_nf (hp2sub _ hc)
    have hp2_nq : '?' ∉ p2 := fun hc => hpath_nq (hp2sub _ hc)
    have hps_stable :
        rejoinParams (paramsSplitOf s p2).1 (paramsSplitOf s p2).2 = p2 := by
      rw [hp2_def]
      exact params_stage_stable s path₀
    have hslash : slashPrep p2 = p2 := by
      unfold slashPrep
      rcases hp2head with hp | hp
      · rw [hp]
        simp
      · cases hpx : p2 with
        | nil => simp
        | cons c t =>
            rw [hpx] at hp
            have hc : c = '/' := by simpa using hp
            subst hc
            rw [if_neg (by simp)]
    have hclean1 : cleanCore x = addScheme s ('/' :: '/' :: (n ++ p2)) := by
      rw [cleanCore_expand, hx_split]
      show addScheme s (netlocAssemble s n
        (rejoinParams (paramsSplitOf s path₀).1 (paramsSplitOf s path₀).2)) = _
      rw [← hp2_def]
      unfold netlocAssemble
      rw [if_pos (Or.inl hnne), hslash]
    have hnBytes : ∀ c ∈ n, isUnsafeUrlByte c = false := by
      intro c hc
      rw [hn_def] at hc
      exact urlPre_safeBytes x c
        (hu1sub c (List.drop_subset 2 u1 (mem_of_mem_takeWhile hc)))
    have hu2_sub : ∀ c ∈ u2, c ∈ u1 := by
      intro c hc
      rw [hu2_def] at hc
      exact List.drop_subset 2 u1 (mem_of_mem_dropWhile hc)
    have hp2Bytes : ∀ c ∈ p2, isUnsafeUrlByte c = false :=
      fun c hc => urlPre_safeBytes x c
        (hu1sub c (hu2_sub c (hpath_sub c (hp2sub c hc))))
    have hwBytes : ∀ c ∈ '/' :: '/' :: (n ++ p2), isUnsafeUrlByte c = false := by
      intro c hc
      rcases List.mem_cons.mp hc with h1 | h1
      · subst h1; decide
      · rcases List.mem_cons.mp h1 with h2 | h2
        · subst h2; decide
        · rcases List.mem_append.mp h2 with h3 | h3
          · exact hnBytes c h3
          · exact hp2Bytes c h3
    have htBytes : ∀ c ∈ addScheme s ('/' :: '/' :: (n ++ p2)),
        isUnsafeUrlByte c = false := by
      intro c hc
      unfold addScheme at hc
      by_cases hs : s ≠ []
      · rw [if_pos hs] at hc
        rcases List.mem_append.mp hc with h1 | h1
        · exact hsBytes c h1
        · rcases List.mem_cons.mp h1 with h2 | h2
          · subst h2; decide
          · exact hwBytes c h2
      · rw [if_neg hs] at hc
        exact hwBytes c hc
    have ht_head : ∀ c, (addScheme s ('/' :: '/' :: (n ++ p2))).head? = some c →
        isC0OrSpace c = false := by
      intro c hc
      unfold addScheme at hc
      by_cases hs : s ≠ []
      · rw [if_pos hs] at hc
        cases hsx : s with
        | nil => exact absurd hsx hs
        | cons a t =>
            rw [hsx] at hc
            have hac : a = c := by simpa using hc
            exact hsC0 c (by rw [hsx, ← hac]; rfl)
      · rw [if_neg hs] at hc
        have hc' : c = '/' := by simpa using hc.symm
        subst hc'
        decide
    have hpre_t : urlPre (addScheme s ('/' :: '/' :: (n ++ p2))) =
        addScheme s ('/' :: '/' :: (n ++ p2)) := by
      unfold urlPre
      rw [lstripC0_of_head ht_head, dropUnsafeBytes_of_clean htBytes]
    have hre_t : schemeSplitOf (addScheme s ('/' :: '/' :: (n ++ p2))) =
        (s, '/' :: '/' :: (n ++ p2)) := hre _ rfl
    have hsp2 : pyUrlsplit (addScheme s ('/' :: '/' :: (n ++ p2))) =
        ⟨s, n, p2, [], []⟩ :=
      pyUrlsplit_built hpre_t hre_t hn_all hp2head hp2_nf hp2_nq
    have hfix := cleanCore_built hnne hps_stable hsp2 hp2head
    refine ⟨?_, ?_⟩
    · rw [hclean1]
      exact hfix
    · rw [hclean1]
      unfold addScheme
      by_cases hs : s ≠ []
      · rw [if_pos hs]
        cases s with
        | nil => exact absurd rfl hs
        | cons a t => simp
      · rw [if_neg hs]
        simp
  · exfalso
    apply hn
    rw [pyUrlsplit_stages hsch1]
    show (netlocSplitOf u1).1 = []
    unfold netlocSplitOf
    rw [if_neg htake]

/-- Cleaning is a fixed point on the output of `cleanCore` whenever the
original parse has a nonempty netloc. -/
theorem cleanCore_netloc_fix (x : List Char)
    (hn : (pyUrlsplit x).netloc ≠ []) :
    cleanCore (cleanCore x) = cleanCore x ∧ cleanCore x ≠ [] := by
  cases hss : splitScheme (urlPre x) with
  | none =>
      have hsch1 : schemeSplitOf (urlPre x) = ([], urlPre x) := by
        unfold schemeSplitOf
        rw [hss]
      refine cleanCore_fix_aux hsch1 (fun _ hc => hc) ?_ ?_ ?_ hn
      · intro w hw
        cases w with
        | nil => simp at hw
        | cons c t =>
            have hc : c = '/' := by simpa using hw
            subst hc
            have haddn : addScheme [] ('/' :: t) = '/' :: t := by
              unfold addScheme
              simp
            rw [haddn]
            unfold schemeSplitOf
            rw [splitScheme_slash]
      · intro c hc
        simp at hc
      · intro c hc
        simp at hc
  | some su =>
      obtain ⟨s, u1⟩ := su
      obtain ⟨c₀, cs, hx_eq, hall, hα, hs_eq⟩ := splitScheme_eq_some hss
      have hsch1 : schemeSplitOf (urlPre x) = (s, u1) := by
        unfold schemeSplitOf
        rw [hss]
      have hfacts : ∀ c ∈ c₀ :: cs,
          isSchemeChar (Char.toLower c) = true ∧ Char.toLower c ≠ ':' ∧
          Char.toLower (Char.toLower c) = Char.toLower c ∧
          (c.isAlpha = true → (Char.toLower c).isAlpha = true) ∧
          isC0OrSpace (Char.toLower c) = false ∧
          isUnsafeUrlByte (Char.toLower c) = false :=
        fun c hc => scheme_char_facts c (isSchemeChar_mem (hall c hc))
      refine cleanCore_fix_aux hsch1 ?_ ?_ ?_ ?_ hn
      · intro c hc
        rw [hx_eq]
        exact List.mem_append_right _ (List.mem_cons_of_mem _ hc)
      · intro w hw
        rw [hs_eq]
        have haddn : addScheme ((c₀ :: cs).map Char.toLower) w =
            (c₀ :: cs).map Char.toLower ++ ':' :: w := by
          unfold addScheme
          rw [if_pos (by simp)]
        rw [haddn]
        unfold schemeSplitOf
        rw [splitScheme_roundtrip hall hα]
      · intro c hc
        rw [hs_eq] at hc
        have hlc : Char.toLower c₀ = c := by simpa using hc
        rw [← hlc]
        exact (hfacts c₀ (by simp)).2.2.2.2.1
      · intro c hc
        rw [hs_eq] at hc
        rcases List.mem_map.mp hc with ⟨c', hc', rfl⟩
        exact (hfacts c' hc').2.2.2.2.2

/-- **C8** (counterexample): the claim `clean(clean(u)) == clean(u)` for
every URL string fails.  Cleaning `"http://h/p ?q"` yields
`"http://h/p "` — the whitespace before the removed query survives because
`urlsplit` only strips leading characters — and cleaning that output again
strips the now-trailing space, giving the different string
`"http://h/p"`. -/
theorem claim_C8_counterexample :
    clean_job_url "http://h/p ?q" = some "http://h/p " ∧
    clean_job_url "http://h/p " = some "http://h/p" ∧
    ("http://h/p " : String) ≠ "http://h/p" := by
  refine ⟨by decide, by decide, by decide⟩

/-- **C8** (amended): `clean_job_url` is idempotent on every URL whose
cleaned form is stable under `str.strip()` and whose parse carries a
nonempty network location — in particular on every well-formed
`http(s)://host/path` job URL.  (On such URLs the raising netloc checks of
CPython's `urlsplit` are inert, so the embedding is exact.) -/
theorem claim_C8_amended (u t : String)
    (h1 : clean_job_url u = some t)
    (h2 : pyStripFull t.data = t.data)
    (h3 : (pyUrlsplit (pyStripFull u.data)).netloc ≠ []) :
    clean_job_url t = clean_job_url u := by
  unfold clean_job_url at h1
  by_cases hu : u = ""
  · rw [if_pos hu] at h1
    exact absurd h1 (by simp)
  · rw [if_neg hu] at h1
    by_cases hc : cleanCore (pyStripFull u.data) = []
    · rw [if_pos hc] at h1
      exact absurd h1 (by simp)
    · rw [if_neg hc] at h1
      have ht : t = String.mk (cleanCore (pyStripFull u.data)) := by
        injection h1 with h1'
        exact h1'.symm
      obtain ⟨hfix, hne⟩ := cleanCore_netloc_fix (pyStripFull u.data) h3
      have htdata : t.data = cleanCore (pyStripFull u.data) := by
        rw [ht]
      have htne : t ≠ "" := by
        intro he
        apply hc
        rw [← htdata, he]
      unfold clean_job_url
      rw [if_neg htne, if_neg hu, if_neg hc, h2, htdata, hfix, if_neg hc, ← ht]

/-- Witness for `claim_C8_amended` at a well-formed job URL with a
tracking parameter. -/
theorem claim_C8_amended_witness :
    clean_job_url "https://x.example/job/1?utm=abc" =
      some "https://x.example/job/1" ∧
    clean_job_url "https://x.example/job/1" =
      clean_job_url "https://x.example/job/1?utm=abc" :=
  ⟨by decide, claim_C8_amended _ _ (by decide) (by decide) (by decide)⟩

/-- **C10**: if the duplicate lookup fails internally — the URL cannot be
cleaned into a canonical form, or the database query raises — the URL-based
duplicate checks return `False` (not duplicate), so the posting is treated
as new and stored rather than dropped. -/
theorem claim_C10_error_means_new
    (query : String → Except Unit Bool) (url : String) (j : JobCreate) :
    (clean_job_url url = none →
      JobMetadataService.check_duplicate_by_url query url = false) ∧
    ((∀ s, query s = Except.error ()) →
      JobMetadataService.check_duplicate_by_url query url = false ∧
      MarqoService.check_duplicate_job query j = false) := by
  constructor
  · intro hclean
    unfold JobMetadataService.check_duplicate_by_url
    by_cases hu : url = ""
    · rw [if_pos hu]
    · rw [if_neg hu, hclean]
  · intro herr
    have hgen : ∀ v, JobMetadataService.check_duplicate_by_url query v = false := by
      intro v
      unfold JobMetadataService.check_duplicate_by_url
      by_cases hv : v = ""
      · rw [if_pos hv]
      · rw [if_neg hv]
        cases hcv : clean_job_url v with
        | none => rfl
        | some cu =>
            show JobMetadataService.check_duplicate_by_clean_url query cu = false
            unfold JobMetadataService.check_duplicate_by_clean_url
            by_cases hcu : cu = ""
            · rw [if_pos hcu]
            · rw [if_neg hcu, herr cu]
    refine ⟨hgen url, ?_⟩
    unfold MarqoService.check_duplicate_job
    by_cases ho : (!j.original_url.isEmpty) = true
    · rw [if_pos ho]
      exact hgen _
    · rw [if_neg ho]
      exact hgen _

/-- Witness for `claim_C10_error_means_new`: an uncleanable URL (`"?x"`
cleans to the empty string, hence `None`) and an always-raising query. -/
theorem claim_C10_witness :
    JobMetadataService.check_duplicate_by_url (fun _ => Except.error ()) "?x" =
      false ∧
    MarqoService.check_duplicate_job (fun _ => Except.error ()) jobC4 = false :=
  ⟨(claim_C10_error_means_new (fun _ => Except.error ()) "?x" jobC4).1 (by decide),
   ((claim_C10_error_means_new (fun _ => Except.error ()) "?x" jobC4).2
     (fun _ => rfl)).2⟩
